import Mathlib

/-!
Shallow embedding of the react-ledgex core (src/core/CommitNode.js,
src/core/Layer.js, src/core/Clock.js) in Lean 4, together with theorems
settling the frozen claims about the natural-language specification.

Modelling conventions:
* JavaScript runtime values are modelled by the inductive `JsVal`
  (`undefined`, `null`, booleans, the integers the engine actually stores,
  strings, `Date` objects carrying their millisecond instant, arrays, and
  plain objects as insertion-ordered association lists).
* A JS `Map` is modelled as an insertion-ordered association list;
  `Map.set` replaces in place for an existing key and appends a fresh key
  at the end, matching JS `Map` iteration order.
* Mutation is modelled by explicit state passing: each method that mutates
  `this` becomes a function returning the updated structure.
* The `while` loop of the binary search is embedded with an explicit fuel
  argument (the standard embedding of a loop), structurally recursive on
  the fuel; the fuel `length + 1` strictly exceeds the number of
  iterations the loop can perform, which the correctness proof
  establishes along the way.
* Recursive JS functions (`valuesEqual`, `_flattenObject`) are embedded by
  well-founded recursion on the size of the value, mirroring the JS
  control flow clause by clause.
-/

/-- Model of a JavaScript runtime value as used by the repository:
primitives, `Date` objects (their instant in milliseconds), arrays and
plain objects (insertion-ordered field lists). -/
inductive JsVal where
  | undef : JsVal
  | null : JsVal
  | bool : Bool → JsVal
  | num : Int → JsVal
  | str : String → JsVal
  | date : Int → JsVal
  | arr : List JsVal → JsVal
  | obj : List (String × JsVal) → JsVal

/-- The JS test `v == null`: true exactly for `undefined` and `null`. -/
def isNullish : JsVal → Bool
  | .undef => true
  | .null => true
  | _ => false

/-- The JS test `Array.isArray(v)`. -/
def isArray : JsVal → Bool
  | .arr _ => true
  | _ => false

/-- The JS test `typeof v === 'object'` at the use sites of the
repository.  `typeof null` is also `'object'` in JS, but every use site
either rules `null` out beforehand (`valuesEqual`) or conjoins
`v !== null` (`_flattenObject`), so excluding `null` here is
observationally faithful. -/
def isObjType : JsVal → Bool
  | .date _ => true
  | .arr _ => true
  | .obj _ => true
  | _ => false

/-- Strict equality `a === b` at the single position where
`CommitNode.valuesEqual` consults it, i.e. after both operands were
checked not to be nullish.  Primitives compare by value; two structurally
given composites are distinct heap references, so `===` yields `false`
for them (the same-reference case is subsumed by the structural branches
that follow in `valuesEqual`). -/
def strictEq : JsVal → JsVal → Bool
  | .bool x, .bool y => x == y
  | .num x, .num y => x == y
  | .str x, .str y => x == y
  | _, _ => false

/-- Association-list lookup with decidable string equality: the model of
reading a JS object property / `Map.get`. -/
def alistGet {α : Type} : List (String × α) → String → Option α
  | [], _ => none
  | (k', v) :: rest, k => if k' = k then some v else alistGet rest k

/-- Association-list update: the model of `Map.set` / property assignment,
replacing in place for an existing key and appending a fresh key at the
end (JS `Map` iteration order). -/
def alistSet {α : Type} : List (String × α) → String → α → List (String × α)
  | [], k, v => [(k, v)]
  | (k', v') :: rest, k, v =>
      if k' = k then (k, v) :: rest else (k', v') :: alistSet rest k v

/-- The JS expression `Object.keys(v)`: field names of a plain object,
index strings of an array, and the empty list for a `Date` (its instant
lives in an internal slot, not in an enumerable own property). -/
def jsKeys : JsVal → List String
  | .obj fields => fields.map (fun f => f.1)
  | .arr xs => (List.range xs.length).map (fun i => toString i)
  | _ => []

/-- Property access `v[k]`, producing `undefined` when the property is
missing.  Array access requires the canonical decimal index string, as in
JS. -/
def jsGet : JsVal → String → JsVal
  | .obj fields, k => (alistGet fields k).getD .undef
  | .arr xs, k =>
      match k.toNat? with
      | some i => if toString i == k then xs.getD i .undef else .undef
      | none => .undef
  | _, _ => .undef

theorem one_le_sizeOf_jsVal (v : JsVal) : 1 ≤ sizeOf v := by
  cases v <;> simp

theorem one_le_sizeOf_int (n : Int) : 1 ≤ sizeOf n := by
  cases n with
  | ofNat m =>
    have h : sizeOf (Int.ofNat m) = 1 + m := rfl
    omega
  | negSucc m =>
    have h : sizeOf (Int.negSucc m) = 1 + m := rfl
    omega

theorem one_le_sizeOf_list {α : Type} [SizeOf α] (l : List α) : 1 ≤ sizeOf l := by
  cases l with
  | nil => simp
  | cons x rest =>
    have h2 : sizeOf (x :: rest) = 1 + sizeOf x + sizeOf rest := by simp
    omega

theorem sizeOf_alistGet_lt {fields : List (String × JsVal)} {k : String} {w : JsVal}
    (h : alistGet fields k = some w) : sizeOf w < sizeOf fields := by
  induction fields with
  | nil => simp [alistGet] at h
  | cons f rest ih =>
    rcases f with ⟨k', v'⟩
    rw [alistGet] at h
    by_cases hk : k' = k
    · rw [if_pos hk] at h
      cases h
      simp
      omega
    · rw [if_neg hk] at h
      have := ih h
      simp
      omega

theorem sizeOf_getD_lt {xs : List JsVal} {i : Nat} (hi : i < xs.length) :
    sizeOf (xs.getD i JsVal.undef) < sizeOf xs := by
  induction xs generalizing i with
  | nil => simp at hi
  | cons x rest ih =>
    have hsz : sizeOf (x :: rest) = 1 + sizeOf x + sizeOf rest := rfl
    cases i with
    | zero =>
      have hx : (x :: rest).getD 0 JsVal.undef = x := rfl
      rw [hx]
      omega
    | succ j =>
      have hj : j < rest.length := by simpa using hi
      have hstep : (x :: rest).getD (j + 1) JsVal.undef = rest.getD j JsVal.undef := rfl
      rw [hstep]
      have hlt := ih hj
      omega

/-- While `a` is object-typed, property access returns a value strictly
smaller than `a` (a proper subvalue or `undefined`). -/
theorem sizeOf_jsGet_lt {a : JsVal} (h : isObjType a = true) (k : String) :
    sizeOf (jsGet a k) < sizeOf a := by
  cases a with
  | date ms =>
    have h1 : jsGet (JsVal.date ms) k = JsVal.undef := rfl
    rw [h1]
    have h2 := one_le_sizeOf_int ms
    simp
    omega
  | arr xs =>
    have hsz : sizeOf (JsVal.arr xs) = 1 + sizeOf xs := by simp
    have hxs := one_le_sizeOf_list xs
    have hu : sizeOf JsVal.undef = 1 := rfl
    cases hk : k.toNat? with
    | none =>
      have h1 : jsGet (JsVal.arr xs) k = JsVal.undef := by simp [jsGet, hk]
      rw [h1]
      omega
    | some i =>
      by_cases hts : (toString i == k) = true
      · have h1 : jsGet (JsVal.arr xs) k = xs.getD i JsVal.undef := by
          simp [jsGet, hk, hts]
        rw [h1]
        by_cases hi : i < xs.length
        · have := sizeOf_getD_lt hi
          omega
        · have h2 : xs.getD i JsVal.undef = JsVal.undef :=
            List.getD_eq_default _ _ (by omega)
          rw [h2]
          omega
      · have h1 : jsGet (JsVal.arr xs) k = JsVal.undef := by simp [jsGet, hk, hts]
        rw [h1]
        omega
  | obj fields =>
    have hsz : sizeOf (JsVal.obj fields) = 1 + sizeOf fields := by simp
    have hfs := one_le_sizeOf_list fields
    have hu : sizeOf JsVal.undef = 1 := rfl
    cases hl : alistGet fields k with
    | none =>
      have h1 : jsGet (JsVal.obj fields) k = JsVal.undef := by simp [jsGet, hl]
      rw [h1]
      omega
    | some w =>
      have h1 : jsGet (JsVal.obj fields) k = w := by simp [jsGet, hl]
      rw [h1]
      have := sizeOf_alistGet_lt hl
      omega
  | undef => simp [isObjType] at h
  | null => simp [isObjType] at h
  | bool b => simp [isObjType] at h
  | num n => simp [isObjType] at h
  | str s => simp [isObjType] at h

/-- `CommitNode.valuesEqual(a, b)` from src/core/CommitNode.js, clause by
clause: the `== null` tests, strict equality, the `instanceof Date`
branch, the `Array.isArray` branch (length test then `every` over the
aligned element pairs), and the `typeof 'object'` branch comparing key
counts and then recursing over the keys of `a` (a key missing from `b`
reads as `undefined`).  The final catch-all models the defensive
`return false`. -/
def valuesEqual (a b : JsVal) : Bool :=
  if isNullish a && isNullish b then true
  else if isNullish a || isNullish b then false
  else if strictEq a b then true
  else
    match a, b with
    | .date x, .date y => x == y
    | .arr xs, .arr ys =>
        xs.length == ys.length &&
        ((xs.zip ys).attach).all (fun p => valuesEqual p.1.1 p.1.2)
    | a', b' =>
        if h : isObjType a' && isObjType b' then
          (jsKeys a').length == (jsKeys b').length &&
          (jsKeys a').all (fun k => valuesEqual (jsGet a' k) (jsGet b' k))
        else false
termination_by sizeOf a + sizeOf b
decreasing_by
  · rcases p with ⟨⟨x, y⟩, hp⟩
    have hx := List.sizeOf_lt_of_mem (List.of_mem_zip hp).1
    have hy := List.sizeOf_lt_of_mem (List.of_mem_zip hp).2
    simp
    omega
  · simp at h
    have h1 := sizeOf_jsGet_lt h.1 k
    have h2 := sizeOf_jsGet_lt h.2 k
    omega

/-- A single commit from src/core/CommitNode.js: `{ t: timestamp, v: value }`.
A tombstone is a commit whose value is `undefined`. -/
structure CommitNode where
  t : Int
  v : JsVal

/-- One iteration step of the `while (low <= high)` binary-search loop of
`Layer._findLatestCommit`, fueled.  `res` tracks the index of the commit
currently stored in the JS variable `result` (the JS code stores the
element reference; the index determines it, and `commits.indexOf` on that
reference recovers exactly this index, timestamps aside, because one
array never contains the same reference twice).  `mid` is
`(low + high) >> 1`, which on the non-negative operands this loop
produces is floor division by two.  The out-of-bounds match arm is
unreachable on the loop's own index range. -/
def findLatestAux (commits : List CommitNode) (targetTime : Int) :
    Nat → Int → Int → Option Nat → Option Nat
  | 0, _, _, res => res
  | fuel + 1, low, high, res =>
    if low ≤ high then
      let mid := (low + high) / 2
      match commits[mid.toNat]? with
      | some c =>
        if c.t ≤ targetTime then
          findLatestAux commits targetTime fuel (mid + 1) high (some mid.toNat)
        else
          findLatestAux commits targetTime fuel low (mid - 1) res
      | none => res
    else res

/-- Index form of `Layer._findLatestCommit(commits, targetTime)`:
`low = 0`, `high = commits.length - 1`, `result = undefined`, and a fuel
exceeding the interval length (the loop halves the interval, so it always
finishes well within `length + 1` iterations). -/
def findLatestIdx (commits : List CommitNode) (targetTime : Int) : Option Nat :=
  findLatestAux commits targetTime (commits.length + 1) 0
    ((commits.length : Int) - 1) none

/-- `Layer._findLatestCommit(commits, targetTime)`: the commit the binary
search returns, or `none` for JS `undefined`. -/
def findLatestCommit (commits : List CommitNode) (targetTime : Int) : Option CommitNode :=
  (findLatestIdx commits targetTime).bind (fun i => commits[i]?)

/-- A Layer's `history` field: `Map<string, CommitNode[]>` as an
insertion-ordered association list. -/
abbrev LayerHist : Type := List (String × List CommitNode)

/-- Reading `this.history.get(key) || []`. -/
def histGet (h : LayerHist) (key : String) : List CommitNode :=
  (alistGet h key).getD []

namespace Layer

mutual

/-- `Layer._flattenObject(obj, prefix)`: dot-joined path keys, recursing
exactly when `typeof v === 'object' && v !== null && !Array.isArray(v)`
(so plain objects and also `Date` objects, whose key list is empty),
everything else a leaf.  `Object.keys(...).reduce` with `Object.assign`
appends the produced entries in field order.  (If two distinct paths
produced the same flattened key string — only possible when a raw key
itself contains a dot — JS `Object.assign` would let the later entry win
while an association list read prefers the earlier one; no claim
involves such keys.)  The call sites only pass values whose `typeof` is
`'object'`; for an array, `Object.keys` enumerates the index strings. -/
def flattenObject (v : JsVal) (pre : String) : List (String × JsVal) :=
  match v with
  | .obj fields => flattenFields pre fields
  | .arr xs => flattenElems pre 0 xs
  | _ => []
termination_by (sizeOf v, 0)

/-- Recursion of `_flattenObject` over the fields of a plain object. -/
def flattenFields (pre : String) (l : List (String × JsVal)) :
    List (String × JsVal) :=
  match l with
  | [] => []
  | (k, c) :: rest =>
      let key := (if pre.length > 0 then pre ++ "." else "") ++ k
      (if isObjType c && !isArray c then flattenObject c key else [(key, c)]) ++
        flattenFields pre rest
termination_by (sizeOf l, 1)

/-- Recursion of `_flattenObject` over the index keys of an array passed
at top level (`Object.keys` of an array are its index strings). -/
def flattenElems (pre : String) (i : Nat) (l : List JsVal) :
    List (String × JsVal) :=
  match l with
  | [] => []
  | c :: rest =>
      let key := (if pre.length > 0 then pre ++ "." else "") ++ toString i
      (if isObjType c && !isArray c then flattenObject c key else [(key, c)]) ++
        flattenElems pre (i + 1) rest
termination_by (sizeOf l, 1)

end

end Layer

/-- The JS test `v === undefined` used by `getState` to skip tombstones. -/
def isUndef : JsVal → Bool
  | .undef => true
  | _ => false

/-- JS truthiness, as used by `_isLayerActive`'s `layerState || false`. -/
def truthy : JsVal → Bool
  | .undef => false
  | .null => false
  | .bool b => b
  | .num n => !(n == 0)
  | .str s => !(s == "")
  | _ => true

namespace Layer

/-- `Layer._setSingleKey(key, value, time)`: push a new commit onto the
key's history (creating it when absent). -/
def setSingleKey (h : LayerHist) (key : String) (v : JsVal) (time : Int) : LayerHist :=
  alistSet h key (histGet h key ++ [⟨time, v⟩])

/-- `Layer.set(keyOrObject, value, time)`: flatten an object argument and
write every flattened leaf, or write a single string key.  (A non-string,
non-object first argument would be coerced to a string by JS property
semantics; no call site of the repository produces one, so that arm is
the identity here.) -/
def setVal (h : LayerHist) (keyOrObject value : JsVal) (time : Int) : LayerHist :=
  if isObjType keyOrObject then
    (flattenObject keyOrObject "").foldl (fun acc kv => setSingleKey acc kv.1 kv.2 time) h
  else
    match keyOrObject with
    | .str k => setSingleKey h k value time
    | _ => h

/-- The body of `Layer.get` on an already fetched commit list:
`undefined` when the list is empty, else the value of the binary-search
result (itself `undefined` when no commit has `t ≤ time`, or when the
found commit is a tombstone). -/
def getValC (commits : List CommitNode) (time : Int) : JsVal :=
  if commits.isEmpty then .undef
  else
    match findLatestCommit commits time with
    | none => .undef
    | some c => c.v

/-- `Layer.get(key, time)`: fetch the key's history and resolve the value
at `time`. -/
def getVal (h : LayerHist) (key : String) (time : Int) : JsVal :=
  getValC (histGet h key) time

/-- `Layer.getState(time)`: every key's visible value at `time`, skipping
keys whose value resolves to `undefined` (missing or tombstoned). -/
def getState (h : LayerHist) (time : Int) : List (String × JsVal) :=
  h.filterMap (fun kc =>
    match findLatestCommit kc.2 time with
    | none => none
    | some c => if isUndef c.v then none else some (kc.1, c.v))

/-- `Layer.isUpdateMeaningful(updates, time)`: flatten the update and test
whether some leaf differs (by `CommitNode.valuesEqual`) from the value of
the latest commit with timestamp `≤ time + 1` — note the `time + 1` in
the source: `this._findLatestCommit(commits, time + 1)?.v`.  The JS
non-object arm `{ [updates]: value }` references an identifier `value`
that is not in scope and throws; it is modelled as the empty update and
is unreachable from the claims. -/
def isUpdateMeaningful (h : LayerHist) (updates : JsVal) (time : Int) : Bool :=
  let flat := if isObjType updates then flattenObject updates "" else []
  flat.any (fun kv =>
    let commits := histGet h kv.1
    let prev :=
      match findLatestCommit commits (time + 1) with
      | none => JsVal.undef
      | some c => c.v
    !(valuesEqual prev kv.2))

/-- The body of `Layer._trimHistory` for one key's commit list, returning
`none` when the key is deleted from the map.  `before = true` is
`direction: "before"` (effective time `minTime - 1`, keep the prefix
through the found commit), `before = false` is `direction: "after"`
(effective time `minTime`, rewrite the found commit's timestamp to
`minTime` and keep from it onward).  An empty pre-existing history is
kept as-is (the JS `continue`).  The `getD` defaults stand for array
reads the JS code performs only at indices it knows to be in bounds. -/
def trimEntry (minTime : Int) (before keepLatest : Bool)
    (commits : List CommitNode) : Option (List CommitNode) :=
  if commits.isEmpty then some commits
  else
    let effectiveMinTime := if before then minTime - 1 else minTime
    match findLatestIdx commits effectiveMinTime with
    | some idx =>
        let lastValid := (commits[idx]?).getD ⟨0, .undef⟩
        let newCommits :=
          if before then commits.take (idx + 1)
          else { t := minTime, v := lastValid.v } :: commits.drop (idx + 1)
        if newCommits.isEmpty then none else some newCommits
    | none =>
        if keepLatest && !commits.isEmpty then
          some [(commits.getLast?).getD ⟨0, .undef⟩]
        else none

/-- `Layer._trimHistory(minTime, { direction, keepLatest })` over the
whole history map. -/
def trimHistory (h : LayerHist) (minTime : Int) (before keepLatest : Bool) : LayerHist :=
  h.filterMap (fun kc =>
    (trimEntry minTime before keepLatest kc.2).map (fun cs => (kc.1, cs)))

/-- `Layer.prune(forkTime)`: `_trimHistory(forkTime, { direction: "before",
keepLatest: false })`. -/
def prune (h : LayerHist) (forkTime : Int) : LayerHist :=
  trimHistory h forkTime true false

/-- `Layer.flush(thresholdTime)`: `_trimHistory(thresholdTime,
{ direction: "after", keepLatest: true })`. -/
def flush (h : LayerHist) (thresholdTime : Int) : LayerHist :=
  trimHistory h thresholdTime false true

end Layer

/-- The Clock of src/core/Clock.js: maximum time `t` and pointer `p`. -/
structure Clock where
  t : Int
  p : Int

namespace Clock

/-- `Clock.tick()`: truncate the future branch if the pointer is behind,
then advance and make the pointer the new maximum. -/
def tick (c : Clock) : Clock :=
  let c1 := if c.p < c.t then { c with t := c.p } else c
  let c2 := { c1 with p := c1.p + 1 }
  { c2 with t := c2.p }

/-- `Clock.undo()`. -/
def undo (c : Clock) : Clock :=
  if c.p > 0 then { c with p := c.p - 1 } else c

/-- `Clock.redo()`. -/
def redo (c : Clock) : Clock :=
  if c.p < c.t then { c with p := c.p + 1 } else c

/-- `Clock.peek()`. -/
def peek (c : Clock) : Int := c.p

/-- `Clock.max()`. -/
def maxTime (c : Clock) : Int := c.t

/-- `Clock.resetTo(time)`: move the pointer only when the argument is in
range, otherwise ignore silently. -/
def resetTo (c : Clock) (time : Int) : Clock :=
  if 0 ≤ time ∧ time ≤ c.t then { c with p := time } else c

end Clock

/-- One Clock operation, for stating the invariant over operation
sequences.  `peek` and `max` are reads and leave the state unchanged. -/
inductive ClockOp where
  | tick : ClockOp
  | undo : ClockOp
  | redo : ClockOp
  | peek : ClockOp
  | maxOp : ClockOp
  | resetTo : Int → ClockOp

/-- Apply one Clock operation to a Clock state. -/
def applyClockOp (c : Clock) : ClockOp → Clock
  | .tick => c.tick
  | .undo => c.undo
  | .redo => c.redo
  | .peek => c
  | .maxOp => c
  | .resetTo time => c.resetTo time

/-- Apply a sequence of Clock operations from left to right. -/
def applyClockOps (c : Clock) : List ClockOp → Clock
  | [] => c
  | op :: rest => applyClockOps (applyClockOp c op) rest

/-- The Ledger (orchestrator) of src/core/Clock.js.  `notifyCount` counts
the calls to `_notify`: each such call queues one microtask that invokes
every subscriber once, so it is the number of times each subscriber will
be called when the queue drains. -/
structure Ledger where
  clock : Clock
  layers : List (String × LayerHist)
  genesis : LayerHist
  bufferSize : Int
  toleranceWindow : Int
  lastFlushTime : Int
  notifyCount : Nat

namespace Ledger

/-- `new Ledger({})`: default `bufferSize` 100 and `toleranceWindow` 20. -/
def init : Ledger :=
  { clock := ⟨0, 0⟩, layers := [], genesis := [], bufferSize := 100,
    toleranceWindow := 20, lastFlushTime := 0, notifyCount := 0 }

/-- `Ledger._notify()`. -/
def notify (s : Ledger) : Ledger :=
  { s with notifyCount := s.notifyCount + 1 }

/-- The history of the given namespace's Layer (empty when absent). -/
def layerOf (s : Ledger) (layerId : String) : LayerHist :=
  (alistGet s.layers layerId).getD []

/-- `Ledger._getLayer(layerId, timeIfNotSet)`: create the Layer lazily and
record its existence in genesis at `timeIfNotSet` when it is new. -/
def getLayerCreate (s : Ledger) (layerId : String) (timeIfNotSet : Int) : Ledger :=
  if (alistGet s.layers layerId).isSome then s
  else
    { s with
      layers := alistSet s.layers layerId [],
      genesis := Layer.setVal s.genesis (.str layerId) (.bool true) timeIfNotSet }

/-- Step 1 of `Ledger.set`: walk the updates, lazily creating each Layer
with `timeIfNotSet = clock.peek() + 1`, and stop (`break`) at the first
namespace whose update is meaningful at `t0 = timeBeforeCheck`. -/
def checkLoop (t0 : Int) : Ledger → List (String × JsVal) → Ledger × Bool
  | s, [] => (s, false)
  | s, (lid, upd) :: rest =>
    let s1 := getLayerCreate s lid (s.clock.p + 1)
    if Layer.isUpdateMeaningful (layerOf s1 lid) upd t0 then (s1, true)
    else checkLoop t0 s1 rest

/-- Replace one namespace's Layer history. -/
def setLayerHist (s : Ledger) (layerId : String) (h : LayerHist) : Ledger :=
  { s with layers := alistSet s.layers layerId h }

/-- `Ledger.prune(minTime)`: prune every Layer, delete Layers whose
snapshot at the current pointer time is empty, prune genesis, notify. -/
def prune (s : Ledger) (minTime : Int) : Ledger :=
  let layers2 := s.layers.filterMap (fun kv =>
    let h2 := Layer.prune kv.2 minTime
    if (Layer.getState h2 s.clock.p).isEmpty then none else some (kv.1, h2))
  notify { s with layers := layers2, genesis := Layer.prune s.genesis minTime }

/-- `Ledger.flush()`: flush every Layer and genesis at
`clock.t - bufferSize`, record `lastFlushTime = clock.t`, notify. -/
def flush (s : Ledger) : Ledger :=
  let minTime := s.clock.t - s.bufferSize
  let s1 := { s with lastFlushTime := s.clock.t }
  let layers2 := s1.layers.map (fun kv => (kv.1, Layer.flush kv.2 minTime))
  notify { s1 with layers := layers2, genesis := Layer.flush s1.genesis minTime }

/-- `Ledger._autoFlush(currentTime)`. -/
def autoFlush (s : Ledger) (currentTime : Int) : Ledger :=
  if currentTime - s.lastFlushTime > s.bufferSize + s.toleranceWindow then flush s
  else s

/-- `Ledger.set(updates)`: the meaningful-update check (which may lazily
create Layers), the silent no-op return, the fork test, the tick, branch
pruning on fork, the per-namespace writes at the new time, auto-flush,
and the final notification. -/
def set (s : Ledger) (updates : List (String × JsVal)) : Ledger :=
  let t0 := s.clock.p
  let check := checkLoop t0 s updates
  if !check.2 then check.1
  else
    let s1 := check.1
    let isFork := s1.clock.p < s1.clock.t
    let c2 := s1.clock.tick
    let time := c2.p
    let s2 := { s1 with clock := c2 }
    let s3 := if isFork then Ledger.prune s2 time else s2
    let s4 := updates.foldl (fun acc kv =>
        let acc1 := getLayerCreate acc kv.1 acc.clock.p
        setLayerHist acc1 kv.1
          (Layer.setVal (layerOf acc1 kv.1) kv.2 JsVal.undef time)) s3
    notify (autoFlush s4 time)

/-- `Ledger._isLayerActive(layerId, time)`: truthiness of
`genesis.get(layerId)`.  The source ignores its `time` parameter — the
genesis read uses the Layer default `time = clock.peek()`. -/
def isLayerActive (s : Ledger) (layerId : String) : Bool :=
  truthy (Layer.getVal s.genesis layerId s.clock.p)

/-- `Ledger.get()` over all namespaces: the snapshot of every Layer that
is alive in genesis at the current pointer time. -/
def getSnap (s : Ledger) : List (String × List (String × JsVal)) :=
  s.layers.filterMap (fun kv =>
    if isLayerActive s kv.1 then some (kv.1, Layer.getState kv.2 s.clock.p)
    else none)

/-- `Ledger.undo()`: move the Clock pointer back and notify (the returned
snapshot is `getSnap` of the result). -/
def undo (s : Ledger) : Ledger :=
  notify { s with clock := s.clock.undo }

/-- `Ledger.redo()`: move the Clock pointer forward and notify. -/
def redo (s : Ledger) : Ledger :=
  notify { s with clock := s.clock.redo }

/-- `Ledger.remove(layerId)`: tick the Clock, then record `false` for the
namespace in genesis at the new pointer time (the Layer `set` default
`time = clock.peek()` is read after the tick), and notify.  The `layers`
map is untouched. -/
def remove (s : Ledger) (layerId : String) : Ledger :=
  let c2 := s.clock.tick
  let s1 := { s with clock := c2 }
  notify { s1 with genesis := Layer.setVal s1.genesis (.str layerId) (.bool false) c2.p }

end Ledger

/-- What the specification says `get` computes: the latest (here: last, the
history being ordered) commit with `timestamp ≤ τ`, if any. -/
def specLatestLE (commits : List CommitNode) (τ : Int) : Option CommitNode :=
  (commits.filter (fun c => decide (c.t ≤ τ))).getLast?

/-- Timestamps never decrease along a history. -/
def Mono (commits : List CommitNode) : Prop :=
  commits.Pairwise (fun c d => c.t ≤ d.t)

/-- Index form of the result `specLatestLE` points at. -/
def specIdxLE (commits : List CommitNode) (τ : Int) : Option Nat :=
  let m := (commits.filter (fun c => decide (c.t ≤ τ))).length
  if m = 0 then none else some (m - 1)

theorem mono_get {commits : List CommitNode} (hm : Mono commits) {i j : Nat}
    (hij : i ≤ j) {ci cj : CommitNode}
    (hi : commits[i]? = some ci) (hj : commits[j]? = some cj) : ci.t ≤ cj.t := by
  rcases Nat.lt_or_ge i j with h | h
  · obtain ⟨hilen, hieq⟩ := List.getElem?_eq_some_iff.1 hi
    obtain ⟨hjlen, hjeq⟩ := List.getElem?_eq_some_iff.1 hj
    have := (List.pairwise_iff_get.1 hm) ⟨i, hilen⟩ ⟨j, hjlen⟩ h
    simpa [List.get_eq_getElem, hieq, hjeq] using this
  · have hij' : i = j := le_antisymm hij h
    subst hij'
    rw [hi] at hj
    cases hj
    exact le_refl _

theorem filter_eq_take_of_pred_iff {l : List CommitNode} {p : CommitNode → Bool} :
    ∀ {k : Nat}, k ≤ l.length →
      (∀ (i : Nat) (c : CommitNode), l[i]? = some c → (p c = true ↔ i < k)) →
      l.filter p = l.take k := by
  induction l with
  | nil => intro k _ _; simp
  | cons x rest ih =>
    intro k hk hiff
    cases k with
    | zero =>
      have hnil : ∀ a ∈ x :: rest, ¬ p a := by
        intro a ha
        obtain ⟨i, hi⟩ := List.getElem_of_mem ha
        have := hiff i a (by rw [List.getElem?_eq_getElem hi.1, hi.2])
        simp at this
        simp [this]
      rw [List.filter_eq_nil_iff.2 hnil]
      simp
    | succ k' =>
      have hx : p x = true := (hiff 0 x (by simp)).2 (Nat.succ_pos k')
      have hrest : rest.filter p = rest.take k' := by
        apply ih (by simpa using hk)
        intro i c hc
        have hstep := hiff (i + 1) c (by simpa using hc)
        exact hstep.trans (by omega)
      rw [List.filter_cons_of_pos hx, List.take_succ_cons, hrest]

/-- Loop invariant of the binary search: everything strictly left of `low`
satisfies `t ≤ τ`, everything strictly right of `high` does not, `res`
holds the index `low - 1` exactly when `low > 0`, and the fuel dominates
the interval length.  Under these the loop returns the index of the last
commit with `t ≤ τ`. -/
theorem findLatestAux_characterization (commits : List CommitNode) (τ : Int)
    (hm : Mono commits) :
    ∀ (fuel : Nat) (low high : Int) (res : Option Nat),
      0 ≤ low → low ≤ high + 1 → high < (commits.length : Int) →
      (high + 1 - low).toNat < fuel →
      (∀ (i : Nat) (c : CommitNode), (i : Int) < low → commits[i]? = some c → c.t ≤ τ) →
      (∀ (i : Nat) (c : CommitNode), high < (i : Int) → commits[i]? = some c → τ < c.t) →
      (if 0 < low then res = some (low - 1).toNat else res = none) →
      findLatestAux commits τ fuel low high res = specIdxLE commits τ := by
  intro fuel
  induction fuel with
  | zero =>
    intro low high res _ _ _ hfuel _ _ _
    omega
  | succ f ih =>
    intro low high res hlow0 hlowhigh hhigh hfuel hbelow habove hres
    by_cases hlh : low ≤ high
    · have hmidlow : low ≤ (low + high) / 2 := by omega
      have hmidhigh : (low + high) / 2 ≤ high := by omega
      have hmidnat : ((low + high) / 2).toNat < commits.length := by omega
      have hcm : commits[((low + high) / 2).toNat]? =
          some commits[((low + high) / 2).toNat] :=
        List.getElem?_eq_getElem hmidnat
      simp only [findLatestAux]
      rw [if_pos hlh]
      split
      case _ cmid heq =>
        by_cases hct : cmid.t ≤ τ
        · rw [if_pos hct]
          apply ih ((low + high) / 2 + 1) high (some ((low + high) / 2).toNat)
            (by omega) (by omega) hhigh (by omega)
          · intro i c hi hc
            by_cases hil : (i : Int) < low
            · exact hbelow i c hil hc
            · have hile : i ≤ ((low + high) / 2).toNat := by omega
              have := mono_get hm hile hc heq
              omega
          · exact habove
          · rw [if_pos (by omega)]
            congr 1
            omega
        · rw [if_neg hct]
          apply ih low ((low + high) / 2 - 1) res hlow0 (by omega) (by omega) (by omega)
          · exact hbelow
          · intro i c hi hc
            by_cases hih : high < (i : Int)
            · exact habove i c hih hc
            · have hile : ((low + high) / 2).toNat ≤ i := by omega
              have := mono_get hm hile heq hc
              omega
          · exact hres
      case _ heq =>
        rw [List.getElem?_eq_none_iff] at heq
        omega
    · simp only [findLatestAux]
      rw [if_neg hlh]
      have hklen : low.toNat ≤ commits.length := by omega
      have hiff : ∀ (i : Nat) (c : CommitNode), commits[i]? = some c →
          ((fun c => decide (c.t ≤ τ)) c = true ↔ i < low.toNat) := by
        intro i c hc
        simp only [decide_eq_true_eq]
        constructor
        · intro hcτ
          by_contra hge
          have hhi : high < (i : Int) := by omega
          have := habove i c hhi hc
          omega
        · intro hilt
          exact hbelow i c (by omega) hc
      have hft := filter_eq_take_of_pred_iff hklen hiff
      have hlen : (commits.filter (fun c => decide (c.t ≤ τ))).length = low.toNat := by
        rw [hft, List.length_take]
        omega
      unfold specIdxLE
      simp only [hlen]
      by_cases hl0 : 0 < low
      · rw [if_pos hl0] at hres
        rw [if_neg (by omega)]
        rw [hres]
        congr 1
        omega
      · rw [if_neg hl0] at hres
        rw [if_pos (by omega)]
        exact hres

/-- `Layer._findLatestCommit` finds the index of the last commit with
`t ≤ τ` on a history with non-decreasing timestamps. -/
theorem findLatestIdx_eq (commits : List CommitNode) (τ : Int) (hm : Mono commits) :
    findLatestIdx commits τ = specIdxLE commits τ := by
  apply findLatestAux_characterization commits τ hm (commits.length + 1) 0
    ((commits.length : Int) - 1) none (by omega) (by omega) (by omega) (by omega)
  · intro i c hi hc
    omega
  · intro i c hi hc
    obtain ⟨hlen, _⟩ := List.getElem?_eq_some_iff.1 hc
    omega
  · rw [if_neg (by omega)]

/-- On a history with non-decreasing timestamps, `t ≤ τ` holds exactly for
the indices below the number of commits satisfying it (they form a
prefix). -/
theorem mono_pred_iff {commits : List CommitNode} (hm : Mono commits) (τ : Int) :
    ∀ (i : Nat) (c : CommitNode), commits[i]? = some c →
      (c.t ≤ τ ↔ i < (commits.filter (fun c => decide (c.t ≤ τ))).length) := by
  induction commits with
  | nil => intro i c hc; simp at hc
  | cons x rest ih =>
    rw [Mono, List.pairwise_cons] at hm
    intro i c hc
    by_cases hx : x.t ≤ τ
    · rw [List.filter_cons_of_pos (by simpa using hx)]
      cases i with
      | zero =>
        simp at hc
        subst hc
        simp [hx]
      | succ j =>
        simp only [List.getElem?_cons_succ] at hc
        have := ih hm.2 j c hc
        simp only [List.length_cons]
        omega
    · have hall : rest.filter (fun c => decide (c.t ≤ τ)) = [] := by
        apply List.filter_eq_nil_iff.2
        intro a ha
        have := hm.1 a ha
        simp
        omega
      rw [List.filter_cons_of_neg (by simpa using hx)]
      rw [hall]
      cases i with
      | zero =>
        simp at hc
        subst hc
        simp [hx]
      | succ j =>
        simp only [List.getElem?_cons_succ] at hc
        have hj := List.getElem?_eq_some_iff.1 hc
        have hmem : c ∈ rest := by
          obtain ⟨hlt, heq⟩ := hj
          exact heq ▸ List.getElem_mem hlt
        have := hm.1 c hmem
        simp
        omega

/-- The commits with `t ≤ τ` are an initial prefix of a monotone history. -/
theorem mono_filter_take {commits : List CommitNode} (hm : Mono commits) (τ : Int) :
    commits.filter (fun c => decide (c.t ≤ τ)) =
      commits.take ((commits.filter (fun c => decide (c.t ≤ τ))).length) := by
  apply filter_eq_take_of_pred_iff (List.length_filter_le _ _)
  intro i c hc
  simpa using mono_pred_iff hm τ i c hc

/-- On a monotone history the binary search finds exactly the commit the
specification describes: the last one with `t ≤ τ`. -/
theorem findLatestCommit_eq (commits : List CommitNode) (τ : Int) (hm : Mono commits) :
    findLatestCommit commits τ = specLatestLE commits τ := by
  unfold findLatestCommit
  rw [findLatestIdx_eq _ _ hm]
  unfold specIdxLE specLatestLE
  by_cases hm0 : (commits.filter (fun c => decide (c.t ≤ τ))).length = 0
  · rw [if_pos hm0]
    rw [List.length_eq_zero] at hm0
    rw [hm0]
    rfl
  · rw [if_neg hm0]
    have hmle : (commits.filter (fun c => decide (c.t ≤ τ))).length ≤ commits.length :=
      List.length_filter_le _ _
    rw [List.getLast?_eq_getElem?]
    rw [Option.some_bind]
    conv_rhs => rw [mono_filter_take hm τ]
    rw [List.length_take]
    rw [List.getElem?_take_of_lt (by omega)]
    rw [Nat.min_eq_left hmle]

/-- `Layer.get`'s body computes the specification's latest-commit value on
any monotone history. -/
theorem getValC_eq (commits : List CommitNode) (τ : Int) (hm : Mono commits) :
    Layer.getValC commits τ =
      (specLatestLE commits τ).elim JsVal.undef (fun c => c.v) := by
  unfold Layer.getValC
  by_cases he : commits.isEmpty
  · rw [if_pos he]
    rw [List.isEmpty_iff] at he
    rw [he]
    rfl
  · rw [if_neg he]
    rw [findLatestCommit_eq _ _ hm]
    cases specLatestLE commits τ <;> rfl

/-- Claim C1: on a key history sorted with strictly increasing timestamps,
`Layer.get(key, τ)` (implemented as the binary search
`_findLatestCommit`) returns the value of the latest commit with
`timestamp ≤ τ`, and `undefined` (absent) when no such commit exists or
when that latest commit is a tombstone (an `undefined`-valued commit). -/
theorem claim_C1_get_is_latest_le (h : LayerHist) (key : String) (τ : Int)
    (hs : (histGet h key).Pairwise (fun c d => c.t < d.t)) :
    Layer.getVal h key τ =
      (specLatestLE (histGet h key) τ).elim JsVal.undef (fun c => c.v) :=
  getValC_eq (histGet h key) τ (hs.imp (fun hcd => le_of_lt hcd))

/-- Witness for C1 at a concrete history and query time. -/
theorem claim_C1_witness :
    Layer.getVal [("x", [⟨1, .num 5⟩, ⟨3, .num 7⟩])] "x" 2 =
      (specLatestLE (histGet [("x", [⟨1, .num 5⟩, ⟨3, .num 7⟩])] "x") 2).elim
        JsVal.undef (fun c => c.v) :=
  claim_C1_get_is_latest_le [("x", [⟨1, .num 5⟩, ⟨3, .num 7⟩])] "x" 2
    (by simp [histGet, alistGet, List.pairwise_cons])

/-- Keys of the history map are distinct — a JS `Map` invariant. -/
def NodupKeys (h : LayerHist) : Prop :=
  (h.map Prod.fst).Nodup

theorem alistGet_eq_none_of_not_mem {α : Type} {h : List (String × α)} {key : String}
    (hk : key ∉ h.map Prod.fst) : alistGet h key = none := by
  induction h with
  | nil => rfl
  | cons kc rest ih =>
    rcases kc with ⟨k', v⟩
    rw [List.map_cons, List.mem_cons, not_or] at hk
    rw [alistGet, if_neg (fun he => hk.1 he.symm)]
    exact ih hk.2

theorem alistGet_filterMapTrim_not_mem
    {f : List CommitNode → Option (List CommitNode)} {h : LayerHist} {key : String}
    (hk : key ∉ h.map Prod.fst) :
    alistGet (h.filterMap (fun kc => (f kc.2).map (fun cs => (kc.1, cs)))) key = none := by
  induction h with
  | nil => rfl
  | cons kc rest ih =>
    rcases kc with ⟨k', cs⟩
    rw [List.map_cons, List.mem_cons, not_or] at hk
    rw [List.filterMap_cons]
    cases hf : f cs with
    | none =>
      simp only [Option.map_none']
      exact ih hk.2
    | some cs2 =>
      simp only [Option.map_some']
      rw [alistGet, if_neg (fun he => hk.1 he.symm)]
      exact ih hk.2

/-- Looking up a key after `_trimHistory`-style per-entry rewriting is the
per-entry rewriting of the lookup. -/
theorem alistGet_filterMapTrim
    (f : List CommitNode → Option (List CommitNode)) (h : LayerHist) (key : String)
    (hnd : NodupKeys h) :
    alistGet (h.filterMap (fun kc => (f kc.2).map (fun cs => (kc.1, cs)))) key =
      (alistGet h key).bind f := by
  induction h with
  | nil => rfl
  | cons kc rest ih =>
    rcases kc with ⟨k', cs⟩
    rw [NodupKeys, List.map_cons, List.nodup_cons] at hnd
    rw [List.filterMap_cons]
    by_cases hkey : k' = key
    · subst hkey
      cases hf : f cs with
      | none =>
        simp only [Option.map_none']
        rw [alistGet_filterMapTrim_not_mem hnd.1]
        rw [alistGet, if_pos rfl, Option.some_bind, hf]
      | some cs2 =>
        simp only [Option.map_some']
        rw [alistGet, if_pos rfl, alistGet, if_pos rfl, Option.some_bind, hf]
    · cases hf : f cs with
      | none =>
        simp only [Option.map_none']
        rw [ih hnd.2, alistGet, if_neg hkey]
      | some cs2 =>
        simp only [Option.map_some']
        rw [alistGet, if_neg hkey, ih hnd.2, alistGet, if_neg hkey]

/-- `_trimHistory` with `direction: "before"` and no `keepLatest` (the
`prune` configuration) on one monotone history: keep the commits with
`t ≤ minTime - 1` (an initial prefix), delete the key if none qualifies,
keep an already-empty history as-is. -/
theorem trimEntry_before_eq (commits : List CommitNode) (minTime : Int)
    (hm : Mono commits) :
    Layer.trimEntry minTime true false commits =
      (if commits.isEmpty then some commits
       else if (commits.filter (fun c => decide (c.t ≤ minTime - 1))).length = 0 then none
       else some (commits.filter (fun c => decide (c.t ≤ minTime - 1)))) := by
  unfold Layer.trimEntry
  have hfi := findLatestIdx_eq commits (minTime - 1) hm
  by_cases he : commits.isEmpty
  · simp [he]
  · by_cases hm0 : (commits.filter (fun c => decide (c.t ≤ minTime - 1))).length = 0
    · simp [he, hfi, specIdxLE, hm0]
    · have htake : commits.take
          ((commits.filter (fun c => decide (c.t ≤ minTime - 1))).length - 1 + 1) =
          commits.filter (fun c => decide (c.t ≤ minTime - 1)) := by
        rw [Nat.sub_add_cancel (by omega)]
        exact (mono_filter_take hm (minTime - 1)).symm
      have hne : ¬ (commits.filter (fun c => decide (c.t ≤ minTime - 1))).isEmpty := by
        simpa [List.isEmpty_iff, List.length_eq_zero] using hm0
      simp [he, hfi, specIdxLE, hm0, htake, hne]

/-- Claim C5: for every key of a history map with distinct keys and a
strictly-increasing commit history, `Layer.prune(forkTime)` keeps exactly
the commits with `timestamp ≤ forkTime - 1` (discarding everything after
the latest such commit, with no retained tail), and when no commit
qualifies for a key with a non-empty history, the key is removed from the
log entirely. -/
theorem claim_C5_prune_discards_after_fork (h : LayerHist) (forkTime : Int)
    (key : String) (hnd : NodupKeys h)
    (hs : (histGet h key).Pairwise (fun c d => c.t < d.t)) :
    histGet (Layer.prune h forkTime) key =
      (histGet h key).filter (fun c => decide (c.t ≤ forkTime - 1)) ∧
    (histGet h key ≠ [] →
      (histGet h key).filter (fun c => decide (c.t ≤ forkTime - 1)) = [] →
      alistGet (Layer.prune h forkTime) key = none) := by
  have hm : Mono (histGet h key) := hs.imp (fun hcd => le_of_lt hcd)
  have hkey : alistGet (Layer.prune h forkTime) key =
      (alistGet h key).bind (Layer.trimEntry forkTime true false) :=
    alistGet_filterMapTrim _ h key hnd
  cases halist : alistGet h key with
  | none =>
    have hempty : histGet h key = [] := by rw [histGet, halist]; rfl
    refine ⟨?_, fun hne _ => absurd hempty hne⟩
    rw [histGet, hkey, halist, hempty]
    rfl
  | some commits =>
    have hcommits : histGet h key = commits := by rw [histGet, halist]; rfl
    rw [hcommits] at hm ⊢
    have hkey2 : alistGet (Layer.prune h forkTime) key =
        Layer.trimEntry forkTime true false commits := by
      rw [hkey, halist, Option.some_bind]
    rw [trimEntry_before_eq commits forkTime hm] at hkey2
    by_cases he : commits.isEmpty
    · rw [List.isEmpty_iff] at he
      subst he
      simp only [List.isEmpty_nil, if_pos] at hkey2
      constructor
      · rw [histGet, hkey2]
        rfl
      · intro hne _
        exact absurd rfl hne
    · rw [if_neg he] at hkey2
      by_cases hm0 : (commits.filter (fun c => decide (c.t ≤ forkTime - 1))).length = 0
      · rw [if_pos hm0] at hkey2
        have hfil : commits.filter (fun c => decide (c.t ≤ forkTime - 1)) = [] :=
          List.length_eq_zero.1 hm0
        refine ⟨?_, fun _ _ => hkey2⟩
        rw [histGet, hkey2, hfil]
        rfl
      · rw [if_neg hm0] at hkey2
        refine ⟨?_, fun _ hfil => ?_⟩
        · rw [histGet, hkey2]
          rfl
        · rw [hfil] at hm0
          simp at hm0

/-- Witness for C5 at a concrete history. -/
theorem claim_C5_witness :
    histGet (Layer.prune [("x", [⟨1, .num 1⟩, ⟨2, .num 2⟩])] 2) "x" =
      (histGet [("x", [⟨1, .num 1⟩, ⟨2, .num 2⟩])] "x").filter
        (fun c => decide (c.t ≤ 2 - 1)) ∧
    (histGet [("x", [⟨1, .num 1⟩, ⟨2, .num 2⟩])] "x" ≠ [] →
      (histGet [("x", [⟨1, .num 1⟩, ⟨2, .num 2⟩])] "x").filter
        (fun c => decide (c.t ≤ 2 - 1)) = [] →
      alistGet (Layer.prune [("x", [⟨1, .num 1⟩, ⟨2, .num 2⟩])] 2) "x" = none) :=
  claim_C5_prune_discards_after_fork [("x", [⟨1, .num 1⟩, ⟨2, .num 2⟩])] 2 "x"
    (by simp [NodupKeys]) (by simp [histGet, alistGet, List.pairwise_cons])

/-- The specification's latest commit, located by index. -/
theorem specLatestLE_eq (commits : List CommitNode) (τ : Int) (hm : Mono commits) :
    specLatestLE commits τ =
      (if (commits.filter (fun c => decide (c.t ≤ τ))).length = 0 then none
       else commits[(commits.filter (fun c => decide (c.t ≤ τ))).length - 1]?) := by
  rw [← findLatestCommit_eq _ _ hm]
  unfold findLatestCommit
  rw [findLatestIdx_eq _ _ hm]
  unfold specIdxLE
  by_cases hm0 : (commits.filter (fun c => decide (c.t ≤ τ))).length = 0 <;>
    simp [hm0]

/-- `_trimHistory` with `direction: "after"` and `keepLatest` (the `flush`
configuration) on one monotone history: rewrite the timestamp of the
latest commit with `t ≤ minTime` to `minTime` and keep from it onward;
when no commit qualifies keep only the most recent commit; keep an
already-empty history as-is. -/
theorem trimEntry_after_eq (commits : List CommitNode) (minTime : Int)
    (hm : Mono commits) :
    Layer.trimEntry minTime false true commits =
      (if commits.isEmpty then some commits
       else if (commits.filter (fun c => decide (c.t ≤ minTime))).length = 0 then
         some [(commits.getLast?).getD ⟨0, .undef⟩]
       else
         some (⟨minTime,
             ((commits[(commits.filter (fun c => decide (c.t ≤ minTime))).length - 1]?).getD
               ⟨0, .undef⟩).v⟩ ::
           commits.drop ((commits.filter (fun c => decide (c.t ≤ minTime))).length))) := by
  unfold Layer.trimEntry
  have hfi := findLatestIdx_eq commits minTime hm
  by_cases he : commits.isEmpty
  · simp [he]
  · by_cases hm0 : (commits.filter (fun c => decide (c.t ≤ minTime))).length = 0
    · simp [he, hfi, specIdxLE, hm0]
    · have hdrop : (commits.filter (fun c => decide (c.t ≤ minTime))).length - 1 + 1 =
          (commits.filter (fun c => decide (c.t ≤ minTime))).length := by omega
      simp [he, hfi, specIdxLE, hm0, hdrop]

/-- What flush does to one key, stated as the amended claim describes it:
keep the latest commit with `timestamp ≤ τ` with its timestamp rewritten
to `τ`, plus every commit after it; when no commit has `timestamp ≤ τ`,
keep only the single most recent commit; an empty history stays empty. -/
def flushKeySpec (commits : List CommitNode) (τ : Int) : List CommitNode :=
  match specLatestLE commits τ with
  | some b =>
      ⟨τ, b.v⟩ :: commits.drop ((commits.filter (fun c => decide (c.t ≤ τ))).length)
  | none =>
      match commits.getLast? with
      | some c => [c]
      | none => []

theorem drop_all_above {commits : List CommitNode} (hm : Mono commits) (τ : Int) :
    ∀ c ∈ commits.drop ((commits.filter (fun c => decide (c.t ≤ τ))).length), τ < c.t := by
  intro c hc
  obtain ⟨j, hj⟩ := List.getElem_of_mem hc
  have hidx : commits[(commits.filter (fun c => decide (c.t ≤ τ))).length + j]? = some c := by
    rw [← List.getElem?_drop]
    rw [List.getElem?_eq_getElem hj.1, hj.2]
  have := mono_pred_iff hm τ _ c hidx
  omega

/-- `Layer.flush(τ)` on every key of a well-formed history map: the
per-key result is `flushKeySpec`, and the visible value at the threshold
time `τ` is unchanged. -/
theorem flush_key_eq (h : LayerHist) (τ : Int) (key : String)
    (hnd : NodupKeys h) (hm : Mono (histGet h key)) :
    histGet (Layer.flush h τ) key = flushKeySpec (histGet h key) τ := by
  have hkey : alistGet (Layer.flush h τ) key =
      (alistGet h key).bind (Layer.trimEntry τ false true) :=
    alistGet_filterMapTrim _ h key hnd
  cases halist : alistGet h key with
  | none =>
    have hempty : histGet h key = [] := by rw [histGet, halist]; rfl
    rw [histGet, hkey, halist, hempty]
    rfl
  | some commits =>
    have hcommits : histGet h key = commits := by rw [histGet, halist]; rfl
    rw [hcommits] at hm ⊢
    have hkey2 : alistGet (Layer.flush h τ) key =
        Layer.trimEntry τ false true commits := by
      rw [hkey, halist, Option.some_bind]
    rw [trimEntry_after_eq commits τ hm] at hkey2
    unfold flushKeySpec
    rw [specLatestLE_eq commits τ hm]
    by_cases he : commits.isEmpty
    · rw [List.isEmpty_iff] at he
      subst he
      simp only [List.isEmpty_nil, if_pos] at hkey2
      rw [histGet, hkey2]
      rfl
    · rw [if_neg he] at hkey2
      by_cases hm0 : (commits.filter (fun c => decide (c.t ≤ τ))).length = 0
      · rw [if_pos hm0] at hkey2
        rw [if_pos hm0]
        rw [histGet, hkey2]
        have hne : commits ≠ [] := by
          intro hc
          rw [hc] at he
          exact he rfl
        obtain ⟨c, hc⟩ := Option.isSome_iff_exists.1 (List.getLast?_isSome.2 hne)
        rw [hc]
        rfl
      · rw [if_neg hm0] at hkey2
        rw [if_neg hm0]
        have hlt : (commits.filter (fun c => decide (c.t ≤ τ))).length - 1 <
            commits.length := by
          have := List.length_filter_le (fun c => decide (c.t ≤ τ)) commits
          omega
        rw [List.getElem?_eq_getElem hlt]
        rw [histGet, hkey2]
        simp [List.getElem?_eq_getElem hlt]

/-- Flushing at `τ` does not change the value visible at `τ`. -/
theorem flush_preserves_getValC (commits : List CommitNode) (τ : Int)
    (hm : Mono commits) :
    Layer.getValC (flushKeySpec commits τ) τ = Layer.getValC commits τ := by
  rw [getValC_eq commits τ hm]
  unfold flushKeySpec
  cases hsp : specLatestLE commits τ with
  | none =>
    cases hlast : commits.getLast? with
    | none => rfl
    | some c =>
      have hcmem : c ∈ commits := List.mem_of_mem_getLast? hlast
      have hfil : commits.filter (fun c => decide (c.t ≤ τ)) = [] := by
        unfold specLatestLE at hsp
        exact List.getLast?_eq_none_iff.1 hsp
      have hct : ¬ (c.t ≤ τ) := by
        have := List.filter_eq_nil_iff.1 hfil c hcmem
        simpa using this
      rw [getValC_eq [c] τ (by simp [Mono])]
      have hone : specLatestLE [c] τ = none := by
        unfold specLatestLE
        rw [List.filter_cons_of_neg (by simpa using hct)]
        rfl
      rw [hone]
  | some b =>
    have hdropmono : Mono (commits.drop
        ((commits.filter (fun c => decide (c.t ≤ τ))).length)) :=
      hm.sublist (List.drop_sublist _ _)
    have hL : Mono (⟨τ, b.v⟩ :: commits.drop
        ((commits.filter (fun c => decide (c.t ≤ τ))).length)) := by
      rw [Mono, List.pairwise_cons]
      exact ⟨fun y hy => le_of_lt (drop_all_above hm τ y hy), hdropmono⟩
    rw [getValC_eq _ τ hL]
    have hspL : specLatestLE (⟨τ, b.v⟩ :: commits.drop
        ((commits.filter (fun c => decide (c.t ≤ τ))).length)) τ = some ⟨τ, b.v⟩ := by
      unfold specLatestLE
      rw [List.filter_cons_of_pos (by simp)]
      have hfd : (commits.drop
          ((commits.filter (fun c => decide (c.t ≤ τ))).length)).filter
            (fun c => decide (c.t ≤ τ)) = [] := by
        apply List.filter_eq_nil_iff.2
        intro y hy
        have := drop_all_above hm τ y hy
        simp
        omega
      rw [hfd]
      rfl
    rw [hspL]
    rfl

/-- Claim C4, amended to what the code does: for every key of a
well-formed history map, `Layer.flush(thresholdTime)` keeps the latest
commit with `timestamp ≤ thresholdTime` (not `thresholdTime - 1`) with
its timestamp rewritten to `thresholdTime`, plus all commits after it;
when no commit has `timestamp ≤ thresholdTime` — in particular for a key
whose commits all lie above the threshold, which is not left untouched —
only the single most recent commit is kept; and the snapshot visible at
`thresholdTime` is unchanged by the flush. -/
theorem claim_C4_flush_amended (h : LayerHist) (τ : Int) (key : String)
    (hnd : NodupKeys h)
    (hs : (histGet h key).Pairwise (fun c d => c.t < d.t)) :
    histGet (Layer.flush h τ) key = flushKeySpec (histGet h key) τ ∧
    Layer.getVal (Layer.flush h τ) key τ = Layer.getVal h key τ := by
  have hm : Mono (histGet h key) := hs.imp (fun hcd => le_of_lt hcd)
  have h1 := flush_key_eq h τ key hnd hm
  refine ⟨h1, ?_⟩
  show Layer.getValC (histGet (Layer.flush h τ) key) τ =
    Layer.getValC (histGet h key) τ
  rw [h1]
  exact flush_preserves_getValC _ τ hm

/-- Counterexample to C4 as frozen: with commits at times 1 and 2 and
`flush(2)`, the claim demands that the latest commit with
`timestamp ≤ 2 - 1 = 1` (the one carrying `num 1`) survive together with
the commit after it (two commits in total), and that a key whose commits
(at times 5 and 6) all lie above threshold 3 stay untouched (two
commits); the code keeps a single commit in both cases. -/
theorem claim_C4_counterexample :
    histGet (Layer.flush [("x", [⟨1, .num 1⟩, ⟨2, .num 2⟩])] 2) "x" =
      [⟨2, .num 2⟩] ∧
    (histGet (Layer.flush [("x", [⟨1, .num 1⟩, ⟨2, .num 2⟩])] 2) "x").length ≠ 2 ∧
    histGet (Layer.flush [("x", [⟨5, .num 1⟩, ⟨6, .num 2⟩])] 3) "x" =
      [⟨6, .num 2⟩] ∧
    (histGet (Layer.flush [("x", [⟨5, .num 1⟩, ⟨6, .num 2⟩])] 3) "x").length ≠ 2 :=
  ⟨rfl, by decide, rfl, by decide⟩

/-- Witness for the amended C4 at a concrete history. -/
theorem claim_C4_witness :
    histGet (Layer.flush [("y", [⟨1, .num 1⟩, ⟨3, .num 2⟩])] 2) "y" =
      flushKeySpec (histGet [("y", [⟨1, .num 1⟩, ⟨3, .num 2⟩])] "y") 2 ∧
    Layer.getVal (Layer.flush [("y", [⟨1, .num 1⟩, ⟨3, .num 2⟩])] 2) "y" 2 =
      Layer.getVal [("y", [⟨1, .num 1⟩, ⟨3, .num 2⟩])] "y" 2 :=
  claim_C4_flush_amended [("y", [⟨1, .num 1⟩, ⟨3, .num 2⟩])] 2 "y"
    (by simp [NodupKeys]) (by simp [histGet, alistGet, List.pairwise_cons])

/-- The raw `?.v` read `isUpdateMeaningful` performs is `Layer.get`'s body:
the empty-history shortcut of `get` makes no difference. -/
theorem getValC_eq_match (commits : List CommitNode) (τ : Int) :
    (match findLatestCommit commits τ with
     | none => JsVal.undef
     | some c => c.v) = Layer.getValC commits τ := by
  unfold Layer.getValC
  by_cases he : commits.isEmpty
  · rw [if_pos he]
    rw [List.isEmpty_iff] at he
    rw [he]
    rfl
  · rw [if_neg he]

/-- Claim C2, amended to what the code does: `isUpdateMeaningful(update,
time)` flattens the candidate update and is true exactly when some
flattened leaf's proposed value is not structurally equal to
`Layer.get(key, time + 1)` — the value of the latest commit with
`timestamp ≤ time + 1`, not the value visible at `time` (the source reads
`this._findLatestCommit(commits, time + 1)?.v`). -/
theorem claim_C2_meaningful_amended (h : LayerHist) (updates : JsVal) (time : Int) :
    Layer.isUpdateMeaningful h updates time =
      (if isObjType updates then Layer.flattenObject updates "" else []).any
        (fun kv => !(valuesEqual (Layer.getVal h kv.1 (time + 1)) kv.2)) := by
  simp only [Layer.isUpdateMeaningful]
  congr 1
  funext kv
  congr 2
  exact getValC_eq_match (histGet h kv.1) (time + 1)

/-- Counterexample to C2 as frozen: with commits at times 1 and 2 on key
`x` and the pointer at time 1, the proposed value `2` differs from the
visible value `Layer.get("x", 1) = 1` (second and third conjuncts), so
the claim predicts a meaningful update, yet `isUpdateMeaningful` compares
against the value at time 2 on the redo branch and returns `false`. -/
theorem claim_C2_counterexample :
    Layer.isUpdateMeaningful [("x", [⟨1, .num 1⟩, ⟨2, .num 2⟩])]
      (.obj [("x", .num 2)]) 1 = false ∧
    Layer.getVal [("x", [⟨1, .num 1⟩, ⟨2, .num 2⟩])] "x" 1 = JsVal.num 1 ∧
    valuesEqual (Layer.getVal [("x", [⟨1, .num 1⟩, ⟨2, .num 2⟩])] "x" 1)
      (JsVal.num 2) = false := by
  refine ⟨?_, rfl, ?_⟩
  · simp [Layer.isUpdateMeaningful, Layer.flattenObject, Layer.flattenFields,
      isObjType, histGet, alistGet, valuesEqual, isNullish, strictEq,
      findLatestCommit, findLatestIdx, findLatestAux]
  · have hget : Layer.getVal [("x", [⟨1, .num 1⟩, ⟨2, .num 2⟩])] "x" 1 =
        JsVal.num 1 := rfl
    rw [hget]
    simp [valuesEqual, isNullish, strictEq, isObjType]

theorem list_all_map {α β : Type} (g : α → β) (l : List α) (p : β → Bool) :
    (l.map g).all p = l.all (fun y => p (g y)) := by
  induction l with
  | nil => rfl
  | cons x rest ih => simp [List.all_cons, ih]

theorem list_all_attach {α : Type} (l : List α) (f : α → Bool) :
    l.attach.all (fun p => f p.1) = l.all f := by
  induction l with
  | nil => rfl
  | cons x rest ih =>
    rw [List.attach_cons, List.all_cons, List.all_cons, list_all_map]
    exact congrArg (fun z => f x && z) ih

theorem strictEq_not_nullish {a b : JsVal} (h : strictEq a b = true) :
    isNullish a = false ∧ isNullish b = false := by
  cases a <;> cases b <;> simp_all [strictEq, isNullish]

/-- Claim C7, amended to what the code does, clause by clause.  The first
five clauses are as the claim states them: both absent → equal, exactly
one absent → unequal, strict equality (identical primitives) → equal,
both dates → equal exactly on the same instant, both sequences → equal
exactly when the lengths agree and the aligned elements are recursively
equal.  The keyed-structure clause is corrected: any two object-typed
values that are not both dates and not both arrays — including a `Date`
paired with a plain object or an array paired with a plain object — are
compared by key COUNT and by recursing over the keys of the FIRST value
only (a key missing from the second reads as `undefined`), not by
requiring the same key set.  The final clause is the defensive fallback:
when either side is not object-typed (and no earlier clause applied), the
values compare unequal. -/
theorem claim_C7_valuesEqual_amended :
    (∀ a b : JsVal, isNullish a = true → isNullish b = true →
      valuesEqual a b = true) ∧
    (∀ a b : JsVal, isNullish a = true → isNullish b = false →
      valuesEqual a b = false) ∧
    (∀ a b : JsVal, isNullish a = false → isNullish b = true →
      valuesEqual a b = false) ∧
    (∀ a b : JsVal, strictEq a b = true → valuesEqual a b = true) ∧
    (∀ x y : Int, valuesEqual (.date x) (.date y) = (x == y)) ∧
    (∀ xs ys : List JsVal, valuesEqual (.arr xs) (.arr ys) =
      ((xs.length == ys.length) &&
        (xs.zip ys).all (fun p => valuesEqual p.1 p.2))) ∧
    (∀ a b : JsVal, isNullish a = false → isNullish b = false →
      strictEq a b = false → isObjType a = true → isObjType b = true →
      (isArray a = false ∨ isArray b = false) →
      ((∃ x, a = JsVal.date x) → (∃ y, b = JsVal.date y) → False) →
      valuesEqual a b =
        (((jsKeys a).length == (jsKeys b).length) &&
          (jsKeys a).all (fun k => valuesEqual (jsGet a k) (jsGet b k)))) ∧
    (∀ a b : JsVal, isNullish a = false → isNullish b = false →
      strictEq a b = false → (isObjType a = false ∨ isObjType b = false) →
      valuesEqual a b = false) := by
  have hnegs : ∀ a b : JsVal, isNullish a = false → isNullish b = false →
      ((isNullish a && isNullish b) = true → False) ∧
      ((isNullish a || isNullish b) = true → False) := by
    intro a b ha hb
    constructor <;> (intro hcon; rw [ha, hb] at hcon; cases hcon)
  have hobjCases : ∀ a : JsVal, isObjType a = true →
      (∃ x, a = JsVal.date x) ∨ (∃ xs, a = JsVal.arr xs) ∨
      (∃ fs, a = JsVal.obj fs) := by
    intro a h
    cases a <;> simp_all [isObjType]
  refine ⟨?_, ?_, ?_, ?_, ?_, ?_, ?_, ?_⟩
  · intro a b ha hb
    rw [valuesEqual.eq_def]
    rw [if_pos (by rw [ha, hb]; rfl)]
  · intro a b ha hb
    rw [valuesEqual.eq_def]
    rw [if_neg (by rw [ha, hb]; exact fun hcon => by cases hcon)]
    rw [if_pos (by rw [ha, hb]; rfl)]
  · intro a b ha hb
    rw [valuesEqual.eq_def]
    rw [if_neg (by rw [ha, hb]; exact fun hcon => by cases hcon)]
    rw [if_pos (by rw [ha, hb]; rfl)]
  · intro a b hst
    obtain ⟨ha, hb⟩ := strictEq_not_nullish hst
    rw [valuesEqual.eq_def]
    rw [if_neg ((hnegs a b ha hb).1), if_neg ((hnegs a b ha hb).2), if_pos hst]
  · intro x y
    rw [valuesEqual.eq_def]
    rw [if_neg (by simp [isNullish]), if_neg (by simp [isNullish]),
      if_neg (by simp [strictEq])]
  · intro xs ys
    rw [valuesEqual.eq_def]
    rw [if_neg (by simp [isNullish]), if_neg (by simp [isNullish]),
      if_neg (by simp [strictEq])]
    show (xs.length == ys.length &&
        ((xs.zip ys).attach.all fun p => valuesEqual p.1.1 p.1.2)) =
      (xs.length == ys.length && ((xs.zip ys).all fun p => valuesEqual p.1 p.2))
    rw [list_all_attach (xs.zip ys) (fun p => valuesEqual p.1 p.2)]
  · intro a b ha hb hst hoa hob hnarr hndate
    rw [valuesEqual.eq_def]
    rw [if_neg ((hnegs a b ha hb).1), if_neg ((hnegs a b ha hb).2),
      if_neg (by rw [hst]; exact fun hcon => by cases hcon)]
    rcases hobjCases a hoa with ⟨x, rfl⟩ | ⟨xs, rfl⟩ | ⟨fs, rfl⟩ <;>
      rcases hobjCases b hob with ⟨y, rfl⟩ | ⟨ys, rfl⟩ | ⟨gs, rfl⟩
    · exact (hndate ⟨x, rfl⟩ ⟨y, rfl⟩).elim
    · rfl
    · rfl
    · rfl
    · rcases hnarr with hA | hA <;> exact absurd hA (by simp [isArray])
    · rfl
    · rfl
    · rfl
    · rfl
  · intro a b ha hb hst hno
    rw [valuesEqual.eq_def]
    rw [if_neg ((hnegs a b ha hb).1), if_neg ((hnegs a b ha hb).2),
      if_neg (by rw [hst]; exact fun hcon => by cases hcon)]
    cases a <;> cases b <;> simp_all [isNullish, isObjType]

/-- Counterexample to C7 as frozen: the code deems `{ x: undefined }`
structurally equal to `{ y: 3 }` although the key sets differ and no
values agree (it only compares key counts and reads the first object's
keys off the second, where a missing key yields `undefined`), and it
deems a `Date` equal to an empty plain object although that pair matches
none of the claim's "both ..." shapes and should fall to the defensive
"unequal" fallback. -/
theorem claim_C7_counterexample :
    valuesEqual (.obj [("x", .undef)]) (.obj [("y", .num 3)]) = true ∧
    valuesEqual (.date 5) (.obj []) = true := by
  constructor <;>
    simp [valuesEqual, isNullish, strictEq, isObjType, jsKeys, jsGet, alistGet]

/-- Witness for the amended C7: its first clause applied at `undefined`
and `null`. -/
theorem claim_C7_witness : valuesEqual JsVal.undef JsVal.null = true :=
  claim_C7_valuesEqual_amended.1 JsVal.undef JsVal.null rfl rfl

theorem flattenObject_date (ms : Int) (pre : String) :
    Layer.flattenObject (.date ms) pre = [] := by
  rw [Layer.flattenObject]
  · intro fields hcon
    cases hcon
  · intro xs hcon
    cases hcon

/-- Claim C8, amended to what the code does: flattening a plain object
recurses into every non-null, non-array value of `typeof 'object'` — so
plain objects are descended into, arrays and primitives are opaque
leaves, but `Date` values (for example) are not kept as leaves: they are
recursed into and, having no enumerable keys, contribute nothing and
vanish from the flattened update. -/
theorem claim_C8_flatten_amended (fields : List (String × JsVal)) (pre : String) :
    Layer.flattenObject (.obj fields) pre =
      fields.flatMap (fun kc =>
        match kc.2 with
        | .obj g =>
            Layer.flattenObject (.obj g)
              ((if pre.length > 0 then pre ++ "." else "") ++ kc.1)
        | .date _ => []
        | c => [((if pre.length > 0 then pre ++ "." else "") ++ kc.1, c)]) := by
  induction fields with
  | nil =>
    rw [Layer.flattenObject, Layer.flattenFields]
    rfl
  | cons kc rest ih =>
    rcases kc with ⟨k, c⟩
    rw [Layer.flattenObject] at ih ⊢
    rw [Layer.flattenFields]
    rw [List.flatMap_cons]
    rw [← ih]
    congr 1
    cases c with
    | obj g => rfl
    | date ms =>
      show Layer.flattenObject (.date ms)
          ((if pre.length > 0 then pre ++ "." else "") ++ k) = []
      exact flattenObject_date ms _
    | arr xs => rfl
    | undef => rfl
    | null => rfl
    | bool b => rfl
    | num n => rfl
    | str st => rfl

/-- Counterexample to C8 as frozen: a `Date` value is not treated as an
opaque leaf — flattening `{ d: Date }` recurses into the date and
produces an empty flat update, so the leaf `d` is lost. -/
theorem claim_C8_counterexample :
    Layer.flattenObject (.obj [("d", .date 0)]) "" = [] ∧
    alistGet (Layer.flattenObject (.obj [("d", .date 0)]) "") "d" = none := by
  have h : Layer.flattenObject (.obj [("d", .date 0)]) "" = [] := by
    simp [Layer.flattenObject, Layer.flattenFields, isObjType, isArray]
  exact ⟨h, by rw [h]; rfl⟩

/-- The documented Clock invariant `0 ≤ p ≤ t`. -/
def ClockInv (c : Clock) : Prop :=
  0 ≤ c.p ∧ c.p ≤ c.t

/-- Claim C9: the Clock invariant `0 ≤ p ≤ t` holds initially and is
preserved by every operation (hence by every operation sequence), `tick`
is the only operation that can increase `t`, and an out-of-range
`resetTo` leaves the state unchanged. -/
theorem claim_C9_clock_invariant :
    ClockInv ⟨0, 0⟩ ∧
    (∀ (c : Clock) (op : ClockOp), ClockInv c → ClockInv (applyClockOp c op)) ∧
    (∀ ops : List ClockOp, ClockInv (applyClockOps ⟨0, 0⟩ ops)) ∧
    (∀ (c : Clock) (op : ClockOp), ClockInv c → op ≠ ClockOp.tick →
      (applyClockOp c op).t ≤ c.t) ∧
    (∀ (c : Clock) (time : Int), time < 0 ∨ c.t < time →
      applyClockOp c (ClockOp.resetTo time) = c) := by
  have hstep : ∀ (c : Clock) (op : ClockOp), ClockInv c →
      ClockInv (applyClockOp c op) := by
    intro c op hinv
    obtain ⟨h1, h2⟩ := hinv
    cases op <;>
      simp only [applyClockOp, Clock.tick, Clock.undo, Clock.redo,
        Clock.resetTo, ClockInv] <;>
      (try split_ifs) <;>
      (refine ⟨?_, ?_⟩ <;> (try simp) <;> omega)
  have hseq : ∀ (ops : List ClockOp) (c : Clock), ClockInv c →
      ClockInv (applyClockOps c ops) := by
    intro ops
    induction ops with
    | nil => intro c hinv; exact hinv
    | cons op rest ih =>
      intro c hinv
      exact ih (applyClockOp c op) (hstep c op hinv)
  refine ⟨⟨le_refl 0, le_refl 0⟩, hstep, fun ops => hseq ops ⟨0, 0⟩ ⟨le_refl 0, le_refl 0⟩, ?_, ?_⟩
  · intro c op hinv hop
    obtain ⟨h1, h2⟩ := hinv
    cases op <;>
      first
      | (exact absurd rfl hop)
      | (simp only [applyClockOp, Clock.undo, Clock.redo, Clock.resetTo]
         (try split_ifs) <;> (try simp) <;> omega)
  · intro c time hout
    simp only [applyClockOp, Clock.resetTo]
    rw [if_neg (by omega)]

/-- Witness for C9: the invariant is preserved through a concrete
operation sequence, and a concrete out-of-range `resetTo` is ignored. -/
theorem claim_C9_witness :
    ClockInv (applyClockOps ⟨0, 0⟩
      [ClockOp.tick, ClockOp.tick, ClockOp.undo, ClockOp.resetTo 9]) ∧
    applyClockOp ⟨5, 3⟩ (ClockOp.resetTo 9) = ⟨5, 3⟩ :=
  ⟨claim_C9_clock_invariant.2.2.1
      [ClockOp.tick, ClockOp.tick, ClockOp.undo, ClockOp.resetTo 9],
    claim_C9_clock_invariant.2.2.2.2 ⟨5, 3⟩ 9 (Or.inr (by decide))⟩

theorem alistGet_alistSet_self {α : Type} (l : List (String × α)) (k : String) (v : α) :
    alistGet (alistSet l k v) k = some v := by
  induction l with
  | nil => simp [alistSet, alistGet]
  | cons kc rest ih =>
    rcases kc with ⟨k', v'⟩
    rw [alistSet]
    by_cases hk : k' = k
    · rw [if_pos hk, alistGet, if_pos rfl]
    · rw [if_neg hk, alistGet, if_neg hk]
      exact ih

theorem alistGet_alistSet_ne {α : Type} (l : List (String × α)) (k : String) (v : α)
    (k2 : String) (h : k ≠ k2) :
    alistGet (alistSet l k v) k2 = alistGet l k2 := by
  induction l with
  | nil => simp [alistSet, alistGet, h]
  | cons kc rest ih =>
    rcases kc with ⟨k', v'⟩
    rw [alistSet]
    by_cases hk : k' = k
    · rw [if_pos hk, alistGet, if_neg h, alistGet, if_neg (hk ▸ h)]
    · rw [if_neg hk, alistGet, alistGet]
      by_cases hk2 : k' = k2
      · rw [if_pos hk2, if_pos hk2]
      · rw [if_neg hk2, if_neg hk2]
        exact ih

/-- `_getLayer` leaves the Clock, the counters and every already-present
Layer untouched; it only ever appends a missing Layer. -/
theorem getLayerCreate_preserves (s : Ledger) (lid : String) (t : Int) :
    (Ledger.getLayerCreate s lid t).clock = s.clock ∧
    (Ledger.getLayerCreate s lid t).notifyCount = s.notifyCount ∧
    (Ledger.getLayerCreate s lid t).lastFlushTime = s.lastFlushTime ∧
    (Ledger.getLayerCreate s lid t).bufferSize = s.bufferSize ∧
    (Ledger.getLayerCreate s lid t).toleranceWindow = s.toleranceWindow ∧
    (∀ lid2, (alistGet s.layers lid2).isSome →
      alistGet (Ledger.getLayerCreate s lid t).layers lid2 = alistGet s.layers lid2) := by
  unfold Ledger.getLayerCreate
  split_ifs with h
  · exact ⟨rfl, rfl, rfl, rfl, rfl, fun _ _ => rfl⟩
  · refine ⟨rfl, rfl, rfl, rfl, rfl, ?_⟩
    intro lid2 hsome
    show alistGet (alistSet s.layers lid []) lid2 = alistGet s.layers lid2
    by_cases heq : lid = lid2
    · subst heq
      rw [Option.isSome_iff_exists] at hsome
      obtain ⟨w, hw⟩ := hsome
      rw [hw] at h
      simp at h
    · exact alistGet_alistSet_ne s.layers lid [] lid2 heq

/-- The meaningful-update check loop leaves the Clock, the counters and
every already-present Layer untouched. -/
theorem checkLoop_preserves (t0 : Int) (u : List (String × JsVal)) :
    ∀ s : Ledger,
      (Ledger.checkLoop t0 s u).1.clock = s.clock ∧
      (Ledger.checkLoop t0 s u).1.notifyCount = s.notifyCount ∧
      (Ledger.checkLoop t0 s u).1.lastFlushTime = s.lastFlushTime ∧
      (Ledger.checkLoop t0 s u).1.bufferSize = s.bufferSize ∧
      (Ledger.checkLoop t0 s u).1.toleranceWindow = s.toleranceWindow ∧
      (∀ lid2, (alistGet s.layers lid2).isSome →
        alistGet (Ledger.checkLoop t0 s u).1.layers lid2 = alistGet s.layers lid2) := by
  induction u with
  | nil => exact fun s => ⟨rfl, rfl, rfl, rfl, rfl, fun _ _ => rfl⟩
  | cons kv rest ih =>
    intro s
    rcases kv with ⟨lid, upd⟩
    rw [Ledger.checkLoop]
    obtain ⟨hc, hn, hl, hb, ht, hlay⟩ := getLayerCreate_preserves s lid (s.clock.p + 1)
    by_cases hmean : Layer.isUpdateMeaningful
        (Ledger.layerOf (Ledger.getLayerCreate s lid (s.clock.p + 1)) lid) upd t0 = true
    · rw [if_pos hmean]
      exact ⟨hc, hn, hl, hb, ht, hlay⟩
    · rw [if_neg hmean]
      obtain ⟨hc2, hn2, hl2, hb2, ht2, hlay2⟩ :=
        ih (Ledger.getLayerCreate s lid (s.clock.p + 1))
      refine ⟨hc2.trans hc, hn2.trans hn, hl2.trans hl, hb2.trans hb, ht2.trans ht, ?_⟩
      intro lid2 hsome
      have hstep := hlay lid2 hsome
      have hsome2 : (alistGet (Ledger.getLayerCreate s lid (s.clock.p + 1)).layers
          lid2).isSome := by
        rw [hstep]
        exact hsome
      exact (hlay2 lid2 hsome2).trans hstep

/-- Claim C3, amended to what the code does: when no namespace's update is
meaningful, `Ledger.set` returns right after the check loop — the Clock
does not advance, no notification is issued, `lastFlushTime` is unchanged
and every previously existing namespace's Commit Log is unchanged — but
the state is not fully untouched: the check loop itself lazily creates a
Commit Log for each namespace it visits that did not exist before,
recording its existence in genesis at `pointer + 1`. -/
theorem claim_C3_noop_amended (s : Ledger) (u : List (String × JsVal))
    (hno : (Ledger.checkLoop s.clock.p s u).2 = false) :
    Ledger.set s u = (Ledger.checkLoop s.clock.p s u).1 ∧
    (Ledger.set s u).clock = s.clock ∧
    (Ledger.set s u).notifyCount = s.notifyCount ∧
    (Ledger.set s u).lastFlushTime = s.lastFlushTime ∧
    (∀ lid, (alistGet s.layers lid).isSome →
      alistGet (Ledger.set s u).layers lid = alistGet s.layers lid) := by
  have hset : Ledger.set s u = (Ledger.checkLoop s.clock.p s u).1 := by
    simp only [Ledger.set]
    rw [hno]
    rfl
  obtain ⟨hc, hn, hl, _, _, hlay⟩ := checkLoop_preserves s.clock.p u s
  rw [hset]
  exact ⟨rfl, hc, hn, hl, hlay⟩

/-- Witness for the amended C3: a fresh Ledger receiving a `null` leaf for
a new namespace. -/
theorem claim_C3_witness :
    Ledger.set Ledger.init [("ns", .obj [("x", .null)])] =
      (Ledger.checkLoop Ledger.init.clock.p Ledger.init
        [("ns", .obj [("x", .null)])]).1 ∧
    (Ledger.set Ledger.init [("ns", .obj [("x", .null)])]).clock =
      Ledger.init.clock ∧
    (Ledger.set Ledger.init [("ns", .obj [("x", .null)])]).notifyCount =
      Ledger.init.notifyCount ∧
    (Ledger.set Ledger.init [("ns", .obj [("x", .null)])]).lastFlushTime =
      Ledger.init.lastFlushTime ∧
    (∀ lid, (alistGet Ledger.init.layers lid).isSome →
      alistGet (Ledger.set Ledger.init [("ns", .obj [("x", .null)])]).layers lid =
        alistGet Ledger.init.layers lid) :=
  claim_C3_noop_amended Ledger.init [("ns", .obj [("x", .null)])]
    (by simp [Ledger.checkLoop, Ledger.getLayerCreate, Ledger.layerOf, alistGet,
      alistSet, Layer.isUpdateMeaningful, Layer.flattenObject, Layer.flattenFields,
      isObjType, histGet, valuesEqual, isNullish, Ledger.init, Layer.setVal,
      findLatestCommit, findLatestIdx, findLatestAux])

/-- Counterexample to C3 as frozen: the transaction `{ ns: { x: null } }`
against a fresh Ledger has no meaningful update (a `null` leaf equals the
absent visible value), and indeed the Clock does not advance and nothing
is notified — but the orchestrator state is NOT left unchanged: the
namespace map gains a Commit Log for `ns` and genesis records `ns` as
alive at time 1. -/
theorem claim_C3_counterexample :
    (Ledger.set Ledger.init [("ns", .obj [("x", .null)])]).clock = ⟨0, 0⟩ ∧
    (Ledger.set Ledger.init [("ns", .obj [("x", .null)])]).notifyCount = 0 ∧
    (Ledger.set Ledger.init [("ns", .obj [("x", .null)])]).layers = [("ns", [])] ∧
    (Ledger.set Ledger.init [("ns", .obj [("x", .null)])]).genesis =
      [("ns", [⟨1, .bool true⟩])] ∧
    Ledger.init.layers = [] ∧ Ledger.init.genesis = [] := by
  refine ⟨?_, ?_, ?_, ?_, rfl, rfl⟩ <;>
    simp [Ledger.set, Ledger.checkLoop, Ledger.getLayerCreate, Ledger.layerOf,
      alistGet, alistSet, Layer.isUpdateMeaningful, Layer.flattenObject,
      Layer.flattenFields, isObjType, histGet, valuesEqual, isNullish,
      Ledger.init, Layer.setVal, Layer.setSingleKey, findLatestCommit,
      findLatestIdx, findLatestAux]

theorem prune_fields (s : Ledger) (m : Int) :
    (Ledger.prune s m).clock = s.clock ∧
    (Ledger.prune s m).notifyCount = s.notifyCount + 1 ∧
    (Ledger.prune s m).lastFlushTime = s.lastFlushTime ∧
    (Ledger.prune s m).bufferSize = s.bufferSize ∧
    (Ledger.prune s m).toleranceWindow = s.toleranceWindow :=
  ⟨rfl, rfl, rfl, rfl, rfl⟩

theorem flush_fields (s : Ledger) :
    (Ledger.flush s).clock = s.clock ∧
    (Ledger.flush s).notifyCount = s.notifyCount + 1 :=
  ⟨rfl, rfl⟩

theorem autoFlush_fields (s : Ledger) (ct : Int) :
    (Ledger.autoFlush s ct).clock = s.clock ∧
    (Ledger.autoFlush s ct).notifyCount = s.notifyCount +
      (if ct - s.lastFlushTime > s.bufferSize + s.toleranceWindow then 1 else 0) := by
  unfold Ledger.autoFlush
  split_ifs with h
  · exact ⟨(flush_fields s).1, (flush_fields s).2⟩
  · simp

/-- The per-namespace write pass of `Ledger.set` leaves the Clock and the
counters untouched. -/
theorem setFold_preserves (time : Int) (u : List (String × JsVal)) :
    ∀ s : Ledger,
      ((u.foldl (fun acc kv =>
          Ledger.setLayerHist (Ledger.getLayerCreate acc kv.1 acc.clock.p) kv.1
            (Layer.setVal
              (Ledger.layerOf (Ledger.getLayerCreate acc kv.1 acc.clock.p) kv.1)
              kv.2 JsVal.undef time)) s).clock = s.clock) ∧
      ((u.foldl (fun acc kv =>
          Ledger.setLayerHist (Ledger.getLayerCreate acc kv.1 acc.clock.p) kv.1
            (Layer.setVal
              (Ledger.layerOf (Ledger.getLayerCreate acc kv.1 acc.clock.p) kv.1)
              kv.2 JsVal.undef time)) s).notifyCount = s.notifyCount) ∧
      ((u.foldl (fun acc kv =>
          Ledger.setLayerHist (Ledger.getLayerCreate acc kv.1 acc.clock.p) kv.1
            (Layer.setVal
              (Ledger.layerOf (Ledger.getLayerCreate acc kv.1 acc.clock.p) kv.1)
              kv.2 JsVal.undef time)) s).lastFlushTime = s.lastFlushTime) ∧
      ((u.foldl (fun acc kv =>
          Ledger.setLayerHist (Ledger.getLayerCreate acc kv.1 acc.clock.p) kv.1
            (Layer.setVal
              (Ledger.layerOf (Ledger.getLayerCreate acc kv.1 acc.clock.p) kv.1)
              kv.2 JsVal.undef time)) s).bufferSize = s.bufferSize) ∧
      ((u.foldl (fun acc kv =>
          Ledger.setLayerHist (Ledger.getLayerCreate acc kv.1 acc.clock.p) kv.1
            (Layer.setVal
              (Ledger.layerOf (Ledger.getLayerCreate acc kv.1 acc.clock.p) kv.1)
              kv.2 JsVal.undef time)) s).toleranceWindow = s.toleranceWindow) := by
  induction u with
  | nil => exact fun s => ⟨rfl, rfl, rfl, rfl, rfl⟩
  | cons kv rest ih =>
    intro s
    rw [List.foldl_cons]
    obtain ⟨hc2, hn2, hl2, hb2, ht2⟩ := ih
      (Ledger.setLayerHist (Ledger.getLayerCreate s kv.1 s.clock.p) kv.1
        (Layer.setVal
          (Ledger.layerOf (Ledger.getLayerCreate s kv.1 s.clock.p) kv.1)
          kv.2 JsVal.undef time))
    obtain ⟨hc1, hn1, hl1, hb1, ht1, _⟩ := getLayerCreate_preserves s kv.1 s.clock.p
    exact ⟨hc2.trans hc1, hn2.trans hn1, hl2.trans hl1, hb2.trans hb1, ht2.trans ht1⟩

theorem clock_tick_p (c : Clock) : (Clock.tick c).p = c.p + 1 := by
  simp only [Clock.tick]
  split_ifs <;> rfl

/-- Claim C6, amended to what the code does: a `Ledger.set` carrying a
meaningful update advances the Clock pointer by exactly one tick, and
issues one notification for the transaction itself — plus one more when
the write forks a redo branch (`Ledger.prune` notifies on its own) and
one more when it triggers an auto-flush (`Ledger.flush` notifies on its
own).  Only a non-forking, non-flushing `set` produces exactly one
notification. -/
theorem claim_C6_tick_notify_amended (s : Ledger) (u : List (String × JsVal))
    (hm : (Ledger.checkLoop s.clock.p s u).2 = true) :
    (Ledger.set s u).clock.p = s.clock.p + 1 ∧
    (Ledger.set s u).notifyCount =
      s.notifyCount + 1 + (if s.clock.p < s.clock.t then 1 else 0) +
        (if s.clock.p + 1 - s.lastFlushTime > s.bufferSize + s.toleranceWindow
         then 1 else 0) := by
  obtain ⟨hc1, hn1, hl1, hb1, ht1, _⟩ := checkLoop_preserves s.clock.p u s
  simp only [Ledger.set]
  have hcond : (!(Ledger.checkLoop s.clock.p s u).2) = false := by rw [hm]; rfl
  rw [hcond]
  simp only [Bool.false_eq_true, if_false]
  by_cases hfork : (Ledger.checkLoop s.clock.p s u).1.clock.p <
      (Ledger.checkLoop s.clock.p s u).1.clock.t
  · rw [if_pos hfork]
    have hforks : s.clock.p < s.clock.t := by rw [← hc1]; exact hfork
    simp only [Ledger.notify]
    constructor
    · rw [(autoFlush_fields _ _).1, (setFold_preserves _ u _).1,
        (prune_fields _ _).1]
      show (Clock.tick (Ledger.checkLoop s.clock.p s u).1.clock).p = s.clock.p + 1
      rw [clock_tick_p, hc1]
    · rw [(autoFlush_fields _ _).2, (setFold_preserves _ u _).2.1,
        (prune_fields _ _).2.1]
      rw [(setFold_preserves _ u _).2.2.1, (prune_fields _ _).2.2.1]
      rw [(setFold_preserves _ u _).2.2.2.1, (prune_fields _ _).2.2.2.1]
      rw [(setFold_preserves _ u _).2.2.2.2, (prune_fields _ _).2.2.2.2]
      rw [hn1, hl1, hb1, ht1]
      show s.notifyCount + 1 +
          (if (Clock.tick (Ledger.checkLoop s.clock.p s u).1.clock).p -
              s.lastFlushTime > s.bufferSize + s.toleranceWindow then 1 else 0) + 1 = _
      rw [clock_tick_p, hc1, if_pos hforks]
      omega
  · rw [if_neg hfork]
    have hforks : ¬ s.clock.p < s.clock.t := by rw [← hc1]; exact hfork
    simp only [Ledger.notify]
    constructor
    · rw [(autoFlush_fields _ _).1, (setFold_preserves _ u _).1]
      show (Clock.tick (Ledger.checkLoop s.clock.p s u).1.clock).p = s.clock.p + 1
      rw [clock_tick_p, hc1]
    · rw [(autoFlush_fields _ _).2, (setFold_preserves _ u _).2.1]
      rw [(setFold_preserves _ u _).2.2.1]
      rw [(setFold_preserves _ u _).2.2.2.1]
      rw [(setFold_preserves _ u _).2.2.2.2]
      rw [hn1, hl1, hb1, ht1]
      show s.notifyCount +
          (if (Clock.tick (Ledger.checkLoop s.clock.p s u).1.clock).p -
              s.lastFlushTime > s.bufferSize + s.toleranceWindow then 1 else 0) + 1 = _
      rw [clock_tick_p, hc1, if_neg hforks]
      omega

/-- Witness for the amended C6: a meaningful first write on a fresh
Ledger. -/
theorem claim_C6_witness :
    (Ledger.set Ledger.init [("a", .obj [("x", .num 1)])]).clock.p =
      Ledger.init.clock.p + 1 ∧
    (Ledger.set Ledger.init [("a", .obj [("x", .num 1)])]).notifyCount =
      Ledger.init.notifyCount + 1 +
        (if Ledger.init.clock.p < Ledger.init.clock.t then 1 else 0) +
        (if Ledger.init.clock.p + 1 - Ledger.init.lastFlushTime >
            Ledger.init.bufferSize + Ledger.init.toleranceWindow then 1 else 0) :=
  claim_C6_tick_notify_amended Ledger.init [("a", .obj [("x", .num 1)])]
    (by simp [Ledger.checkLoop, Ledger.getLayerCreate, Ledger.layerOf, alistGet,
      alistSet, Layer.isUpdateMeaningful, Layer.flattenObject, Layer.flattenFields,
      isObjType, histGet, valuesEqual, isNullish, Ledger.init, Layer.setVal,
      findLatestCommit, findLatestIdx, findLatestAux])

set_option maxHeartbeats 4000000 in
/-- Counterexample to C6 as frozen: write `x := 1` then `x := 2`, `undo`
once (three notifications so far), then issue the meaningful update
`x := 3` while a redo branch exists.  That single forking `set` raises
the notification count from 3 to 5 — two notifications, not one, because
`Ledger.prune` notifies on its own before `set`'s final notification. -/
theorem claim_C6_counterexample :
    (Ledger.undo (Ledger.set (Ledger.set Ledger.init
      [("a", .obj [("x", .num 1)])]) [("a", .obj [("x", .num 2)])])).notifyCount = 3 ∧
    (Ledger.set (Ledger.undo (Ledger.set (Ledger.set Ledger.init
      [("a", .obj [("x", .num 1)])]) [("a", .obj [("x", .num 2)])]))
      [("a", .obj [("x", .num 3)])]).notifyCount = 5 ∧
    (Ledger.checkLoop
      (Ledger.undo (Ledger.set (Ledger.set Ledger.init
        [("a", .obj [("x", .num 1)])]) [("a", .obj [("x", .num 2)])])).clock.p
      (Ledger.undo (Ledger.set (Ledger.set Ledger.init
        [("a", .obj [("x", .num 1)])]) [("a", .obj [("x", .num 2)])]))
      [("a", .obj [("x", .num 3)])]).2 = true := by
  have h1 : Ledger.set Ledger.init [("a", .obj [("x", .num 1)])] =
      { clock := ⟨1, 1⟩, layers := [("a", [("x", [⟨1, .num 1⟩])])],
        genesis := [("a", [⟨1, .bool true⟩])], bufferSize := 100,
        toleranceWindow := 20, lastFlushTime := 0, notifyCount := 1 } := by
    simp [Ledger.set, Ledger.checkLoop, Ledger.getLayerCreate, Ledger.layerOf, alistGet, alistSet,
      Layer.isUpdateMeaningful, Layer.flattenObject, Layer.flattenFields, isObjType, histGet,
      valuesEqual, isNullish, strictEq, Ledger.init, Layer.setVal, Layer.setSingleKey,
      findLatestCommit, findLatestIdx, findLatestAux, Ledger.notify, Clock.tick,
      Ledger.prune, Ledger.autoFlush, Ledger.flush, Ledger.setLayerHist]
  rw [h1]
  have h2 : Ledger.set
      { clock := ⟨1, 1⟩, layers := [("a", [("x", [⟨1, .num 1⟩])])],
        genesis := [("a", [⟨1, .bool true⟩])], bufferSize := 100,
        toleranceWindow := 20, lastFlushTime := 0, notifyCount := 1 }
      [("a", .obj [("x", .num 2)])] =
      { clock := ⟨2, 2⟩, layers := [("a", [("x", [⟨1, .num 1⟩, ⟨2, .num 2⟩])])],
        genesis := [("a", [⟨1, .bool true⟩])], bufferSize := 100,
        toleranceWindow := 20, lastFlushTime := 0, notifyCount := 2 } := by
    simp [Ledger.set, Ledger.checkLoop, Ledger.getLayerCreate, Ledger.layerOf, alistGet, alistSet,
      Layer.isUpdateMeaningful, Layer.flattenObject, Layer.flattenFields, isObjType, histGet,
      valuesEqual, isNullish, strictEq, Layer.setVal, Layer.setSingleKey,
      findLatestCommit, findLatestIdx, findLatestAux, Ledger.notify, Clock.tick,
      Ledger.prune, Ledger.autoFlush, Ledger.flush, Ledger.setLayerHist]
  rw [h2]
  have h3 : Ledger.undo
      { clock := ⟨2, 2⟩, layers := [("a", [("x", [⟨1, .num 1⟩, ⟨2, .num 2⟩])])],
        genesis := [("a", [⟨1, .bool true⟩])], bufferSize := 100,
        toleranceWindow := 20, lastFlushTime := 0, notifyCount := 2 } =
      { clock := ⟨2, 1⟩, layers := [("a", [("x", [⟨1, .num 1⟩, ⟨2, .num 2⟩])])],
        genesis := [("a", [⟨1, .bool true⟩])], bufferSize := 100,
        toleranceWindow := 20, lastFlushTime := 0, notifyCount := 3 } := by
    simp [Ledger.undo, Ledger.notify, Clock.undo]
  rw [h3]
  have h4 : Ledger.set
      { clock := ⟨2, 1⟩, layers := [("a", [("x", [⟨1, .num 1⟩, ⟨2, .num 2⟩])])],
        genesis := [("a", [⟨1, .bool true⟩])], bufferSize := 100,
        toleranceWindow := 20, lastFlushTime := 0, notifyCount := 3 }
      [("a", .obj [("x", .num 3)])] =
      { clock := ⟨2, 2⟩, layers := [("a", [("x", [⟨1, .num 1⟩, ⟨2, .num 3⟩])])],
        genesis := [("a", [⟨1, .bool true⟩])], bufferSize := 100,
        toleranceWindow := 20, lastFlushTime := 0, notifyCount := 5 } := by
    simp [Ledger.set, Ledger.checkLoop, Ledger.getLayerCreate, Ledger.layerOf, alistGet, alistSet,
      Layer.isUpdateMeaningful, Layer.flattenObject, Layer.flattenFields, isObjType, histGet,
      valuesEqual, isNullish, strictEq, Layer.setVal, Layer.setSingleKey,
      findLatestCommit, findLatestIdx, findLatestAux, Ledger.notify, Clock.tick,
      Ledger.prune, Ledger.autoFlush, Ledger.flush, Ledger.setLayerHist,
      Layer.prune, Layer.trimHistory, Layer.trimEntry, Layer.getState, isUndef, Layer.flush]
  rw [h4]
  refine ⟨rfl, rfl, ?_⟩
  simp [Ledger.checkLoop, Ledger.getLayerCreate, Ledger.layerOf, alistGet,
    Layer.isUpdateMeaningful, Layer.flattenObject, Layer.flattenFields, isObjType, histGet,
    valuesEqual, isNullish, strictEq, findLatestCommit, findLatestIdx, findLatestAux]

theorem clock_tick_eq (c : Clock) : Clock.tick c = ⟨c.p + 1, c.p + 1⟩ := by
  simp only [Clock.tick]
  split_ifs <;> rfl

/-- Appending one commit whose timestamp lies strictly above the query
time does not change the resolved value. -/
theorem getValC_append_gt (commits : List CommitNode) (c : CommitNode) (τ : Int)
    (hm : Mono commits) (hbound : ∀ d ∈ commits, d.t ≤ c.t) (hτ : τ < c.t) :
    Layer.getValC (commits ++ [c]) τ = Layer.getValC commits τ := by
  have hm2 : Mono (commits ++ [c]) := by
    rw [Mono, List.pairwise_append]
    refine ⟨hm, by simp [List.pairwise_cons], ?_⟩
    intro a ha b hb
    simp at hb
    subst hb
    exact hbound a ha
  rw [getValC_eq _ _ hm2, getValC_eq _ _ hm]
  unfold specLatestLE
  rw [List.filter_append]
  have hc : [c].filter (fun d => decide (d.t ≤ τ)) = [] := by
    simp
    omega
  rw [hc, List.append_nil]

/-- Claim C10: removing a namespace is undoable.  For a namespace alive
at the current pointer time (with a well-formed genesis history whose
commits do not lie beyond the next tick), `Ledger.remove` ticks the Clock
and records the dead flag only at the new time, and does not delete the
namespace's Commit Log; so after `Ledger.undo` the pointer is back at its
old position, the Layer map is unchanged, the namespace is alive again,
and `Ledger.get`'s full snapshot is exactly what it was before the
removal. -/
theorem claim_C10_remove_undoable (s : Ledger) (lid : String)
    (hp : 0 ≤ s.clock.p)
    (hmono : Mono (histGet s.genesis lid))
    (hbound : ∀ c ∈ histGet s.genesis lid, c.t ≤ s.clock.p + 1)
    (halive : Ledger.isLayerActive s lid = true) :
    (Ledger.undo (Ledger.remove s lid)).clock.p = s.clock.p ∧
    (Ledger.undo (Ledger.remove s lid)).layers = s.layers ∧
    Ledger.isLayerActive (Ledger.undo (Ledger.remove s lid)) lid = true ∧
    Ledger.getSnap (Ledger.undo (Ledger.remove s lid)) = Ledger.getSnap s := by
  have hs' : Ledger.undo (Ledger.remove s lid) =
      { s with clock := ⟨s.clock.p + 1, s.clock.p⟩,
               genesis := alistSet s.genesis lid
                 (histGet s.genesis lid ++ [⟨s.clock.p + 1, .bool false⟩]),
               notifyCount := s.notifyCount + 2 } := by
    simp only [Ledger.remove, Ledger.undo, Ledger.notify, clock_tick_eq]
    simp only [Layer.setVal, isObjType, Layer.setSingleKey]
    simp only [Clock.undo]
    rw [if_pos (by simp; omega)]
    rw [if_neg (by simp)]
    have h1 : s.clock.p + 1 - 1 = s.clock.p := by omega
    rw [h1]
  have hgen : histGet (Ledger.undo (Ledger.remove s lid)).genesis lid =
      histGet s.genesis lid ++ [⟨s.clock.p + 1, .bool false⟩] := by
    rw [hs']
    show (alistGet (alistSet s.genesis lid _) lid).getD [] = _
    rw [alistGet_alistSet_self]
    rfl
  have hclockp : (Ledger.undo (Ledger.remove s lid)).clock.p = s.clock.p := by
    rw [hs']
  have hlayers : (Ledger.undo (Ledger.remove s lid)).layers = s.layers := by
    rw [hs']
  have hval : ∀ k : String,
      Layer.getVal (Ledger.undo (Ledger.remove s lid)).genesis k
          (Ledger.undo (Ledger.remove s lid)).clock.p =
        Layer.getVal s.genesis k s.clock.p := by
    intro k
    by_cases hk : k = lid
    · rw [hk]
      have happ := getValC_append_gt (histGet s.genesis lid)
        ⟨s.clock.p + 1, .bool false⟩ s.clock.p hmono hbound
        (show s.clock.p < s.clock.p + 1 by omega)
      show Layer.getValC (histGet (Ledger.undo (Ledger.remove s lid)).genesis lid)
          (Ledger.undo (Ledger.remove s lid)).clock.p = _
      rw [hgen, hclockp]
      exact happ
    · show Layer.getValC (histGet (Ledger.undo (Ledger.remove s lid)).genesis k)
          (Ledger.undo (Ledger.remove s lid)).clock.p = _
      rw [hclockp]
      have hsame : histGet (Ledger.undo (Ledger.remove s lid)).genesis k =
          histGet s.genesis k := by
        rw [hs']
        show (alistGet (alistSet s.genesis lid _) k).getD [] = _
        rw [alistGet_alistSet_ne _ _ _ _ (fun he => hk he.symm)]
        rfl
      rw [hsame]
      rfl
  have hact : ∀ k : String,
      Ledger.isLayerActive (Ledger.undo (Ledger.remove s lid)) k =
        Ledger.isLayerActive s k := by
    intro k
    show truthy _ = truthy _
    rw [hval k]
  refine ⟨hclockp, hlayers, ?_, ?_⟩
  · rw [hact lid]
    exact halive
  · show (Ledger.undo (Ledger.remove s lid)).layers.filterMap _ =
      s.layers.filterMap _
    rw [hlayers]
    congr 1
    funext kv
    rw [hact kv.1, hclockp]

/-- Witness for C10 at a concrete one-namespace Ledger. -/
theorem claim_C10_witness :
    (Ledger.undo (Ledger.remove
      { clock := ⟨1, 1⟩, layers := [("a", [("x", [⟨1, .num 7⟩])])],
        genesis := [("a", [⟨1, .bool true⟩])], bufferSize := 100,
        toleranceWindow := 20, lastFlushTime := 0, notifyCount := 1 } "a")).clock.p =
      (⟨1, 1⟩ : Clock).p ∧
    (Ledger.undo (Ledger.remove
      { clock := ⟨1, 1⟩, layers := [("a", [("x", [⟨1, .num 7⟩])])],
        genesis := [("a", [⟨1, .bool true⟩])], bufferSize := 100,
        toleranceWindow := 20, lastFlushTime := 0, notifyCount := 1 } "a")).layers =
      [("a", [("x", [⟨1, .num 7⟩])])] ∧
    Ledger.isLayerActive (Ledger.undo (Ledger.remove
      { clock := ⟨1, 1⟩, layers := [("a", [("x", [⟨1, .num 7⟩])])],
        genesis := [("a", [⟨1, .bool true⟩])], bufferSize := 100,
        toleranceWindow := 20, lastFlushTime := 0, notifyCount := 1 } "a")) "a" = true ∧
    Ledger.getSnap (Ledger.undo (Ledger.remove
      { clock := ⟨1, 1⟩, layers := [("a", [("x", [⟨1, .num 7⟩])])],
        genesis := [("a", [⟨1, .bool true⟩])], bufferSize := 100,
        toleranceWindow := 20, lastFlushTime := 0, notifyCount := 1 } "a")) =
      Ledger.getSnap
      { clock := ⟨1, 1⟩, layers := [("a", [("x", [⟨1, .num 7⟩])])],
        genesis := [("a", [⟨1, .bool true⟩])], bufferSize := 100,
        toleranceWindow := 20, lastFlushTime := 0, notifyCount := 1 } :=
  claim_C10_remove_undoable
    { clock := ⟨1, 1⟩, layers := [("a", [("x", [⟨1, .num 7⟩])])],
      genesis := [("a", [⟨1, .bool true⟩])], bufferSize := 100,
      toleranceWindow := 20, lastFlushTime := 0, notifyCount := 1 } "a"
    (by decide)
    (by simp [histGet, alistGet, Mono, List.pairwise_cons])
    (by intro c hc
        simp [histGet, alistGet] at hc
        subst hc
        decide)
    (by rfl)
